import Mathlib

/-!
Verification of the scooch configuration-to-object binding library.

This file gives a shallow embedding of the core of the `scooch` package
(`generic.py`, `config.py`, `configurable.py`, `configurable_factory.py`,
`helper_funcs.py`, `configurable_meta.py`, `param.py`, `alias_param.py`)
and proves/refutes the frozen claims about it.

Modelling conventions:
- Python configuration values become the inductive type `Value`
  (None / int / str / bool / lists / insertion-ordered dicts).  Python dict
  keys in configuration trees are strings or ints, modelled by `Key`.
  Floats and exotic key types do not occur in any claim and are omitted.
- Stateful code is embedded by explicit state passing: a Python function
  that mutates an argument in place is modelled as a function that returns,
  next to its Python return value, the post-call contents of the mutated
  argument.
- Fallible code returns `Except`.  Python exception classes are modelled by
  small error inductives carrying the diagnostic payload that the source
  interpolates into its messages.
- Recursions whose termination Python does not guarantee (they can overflow
  the interpreter stack or loop on cyclic schemas) take a `fuel : Nat`
  argument and fail with a dedicated `noFuel` error when it runs out;
  theorems about successful runs take a `= .ok _` hypothesis, which makes
  them independent of the particular fuel bound.
-/

namespace Scooch

/-- Keys of Python dictionaries appearing in scooch configuration trees:
YAML mappings are keyed by strings, and the sparse list-patch dictionaries
of `generic.merge_lists` are keyed by ints. -/
inductive Key where
  | str (s : String)
  | int (n : Int)
deriving DecidableEq, Repr

/-- Python values appearing in scooch configuration trees: `None`, ints,
strings, bools, lists, and insertion-ordered dicts. -/
inductive Value where
  | none
  | int (n : Int)
  | str (s : String)
  | bool (b : Bool)
  | list (xs : List Value)
  | dict (entries : List (Key × Value))
deriving Repr

/-- Entries of a Python dict: an insertion-ordered association list.
The scooch code never inserts duplicate keys, and all our operations keep
the first occurrence authoritative, matching Python dict semantics. -/
abbrev Entries := List (Key × Value)

/-- Python `d[k]` / `d.get(k)`: first entry with the given key. -/
def dlookup : Entries → Key → Option Value
  | [], _ => Option.none
  | (k, v) :: rest, key => if k = key then some v else dlookup rest key

/-- Python `k in d`. -/
def dcontains (m : Entries) (k : Key) : Bool :=
  (dlookup m k).isSome

/-- Python `d[k] = v`: update in place if the key exists (keeping its
position, as Python dicts do), otherwise append at the end. -/
def dset : Entries → Key → Value → Entries
  | [], key, v => [(key, v)]
  | (k, w) :: rest, key, v =>
    if k = key then (k, v) :: rest else (k, w) :: dset rest key v

/-- Python `list(d.keys())`. -/
def dkeys (m : Entries) : List Key := m.map Prod.fst

/-- String-keyed lookup, used where the source compares dict keys against
class or field names (which are strings). -/
def slookup (m : Entries) (s : String) : Option Value := dlookup m (.str s)

/-- Python `l[i] = v` for a valid non-negative index. -/
def lset : List Value → Nat → Value → List Value
  | [], _, _ => []
  | _ :: xs, 0, v => v :: xs
  | x :: xs, n + 1, v => x :: lset xs n v

/-- Errors raised by the merge engine of `generic.py`. -/
inductive MergeErr where
  /-- The `ValueError` of `generic.py` line 50: patch index `>=` list length. -/
  | outOfRange (idx : Int) (len : Nat)
  /-- The uncaught `IndexError` from `list1[idx]` when `idx < -len(list1)`. -/
  | indexError (idx : Int)
  /-- Fuel exhaustion (models interpreter stack overflow on unbounded nesting). -/
  | noFuel
deriving DecidableEq, Repr

/-- Python `isinstance(k, int)` on every key of a dict: true iff all keys of
the override dict are ints (`generic.py` line 47; vacuously true for `{}`). -/
def allIntKeys (m : Entries) : Bool :=
  m.all fun e => match e.1 with | .int _ => true | .str _ => false

mutual

/-- Embeds `generic.merge_lists` (generic.py lines 27-61).  Python mutates
`list1` in place in the sparse-patch branch and then returns it, so the
result and the post-call contents of the caller's list coincide there; we
return the pair `(python return value, contents of list1 after the call)`.
A list or non-dict override is returned as-is and `list1` is untouched.
On an error the `Except` discards the partial in-place mutations that
preceded the raised exception; no claim observes state after an error. -/
def mergeLists (fuel : Nat) (list1 : List Value) (override : Value) :
    Except MergeErr (Value × List Value) :=
  match fuel with
  | 0 => .error .noFuel
  | fuel + 1 =>
    match override with
    | .list xs => .ok (.list xs, list1)
    | .dict m =>
      if allIntKeys m then do
        let patched ← mergePatch fuel list1 m
        .ok (.list patched, patched)
      else
        .ok (.dict m, list1)
    | v => .ok (v, list1)
termination_by (fuel, 0)

/-- Embeds the `for idx, value in override.items()` loop of
`generic.merge_lists` (generic.py lines 48-56), applying each index-to-value
patch in dict insertion order.  `list1[idx]` follows Python indexing: a
negative `idx` with `-len <= idx` addresses `len + idx`, and `idx < -len`
raises `IndexError`; `idx >= len` raises the `ValueError` of line 50. -/
def mergePatch (fuel : Nat) (list1 : List Value) (patch : Entries) :
    Except MergeErr (List Value) :=
  match patch with
  | [] => .ok list1
  | (k, v) :: rest => do
    let idx := match k with | .int n => n | .str _ => 0
    if idx ≥ (list1.length : Int) then
      .error (.outOfRange idx list1.length)
    else
      -- Python negative indexing for `list1[idx]`.
      let pos : Int := if idx < 0 then (list1.length : Int) + idx else idx
      if pos < 0 then
        .error (.indexError idx)
      else do
        let n := pos.toNat
        let elem := list1.getD n .none
        let newElem ←
          match elem, v with
          | .dict d1, .dict d2 => do
            -- generic.py line 52: `dict(merge_dicts(list1[idx], value))`.
            -- The element is replaced by the fresh merged dict, so the
            -- post-call contents of the old element object are dropped.
            let (res, _) ← mergeDicts fuel d1 d2
            pure (Value.dict res)
          | .list l1, .dict d2 => do
            -- generic.py line 54: recurse as a sparse list patch.
            let (res, _) ← mergeLists fuel l1 (.dict d2)
            pure res
          | _, _ => pure v
        mergePatch fuel (lset list1 n newElem) rest
termination_by (fuel, patch.length + 1)

/-- Embeds `generic.merge_dicts` (generic.py lines 64-94) composed with the
`dict(...)` the callers wrap it in.  Python iterates over
`set(dict1).union(override)`, whose order is unspecified; we iterate over
the keys of `dict1` in order followed by the new keys of `override` in
order, which processes exactly the same key set (no claim depends on entry
order).  Returns `(merged dict, contents of dict1 after the call)`: the
generator itself never writes into `dict1`, but `merge_lists` mutates
list values of `dict1` in place, which the second component records. -/
def mergeDicts (fuel : Nat) (dict1 override : Entries) :
    Except MergeErr (Entries × Entries) :=
  match fuel with
  | 0 => .error .noFuel
  | fuel + 1 => do
    let keys := dkeys dict1 ++ (dkeys override).filter (fun k => ¬ dcontains dict1 k)
    mergeKeys fuel dict1 override keys
termination_by (fuel, 0)

/-- Processes the merged key list for `mergeDicts`, accumulating the yielded
pairs and the updated contents of `dict1`. -/
def mergeKeys (fuel : Nat) (dict1 override : Entries) :
    List Key → Except MergeErr (Entries × Entries)
  | [] => .ok ([], dict1)
  | k :: rest => do
    match dlookup dict1 k, dlookup override k with
    | some v1, some v2 => do
      let (merged, d1After) ←
        match v1, v2 with
        | .dict a, .dict b => do
          let (res, after) ← mergeDicts fuel a b
          pure (Value.dict res, dset dict1 k (.dict after))
        | .list l1, ov => do
          let (res, l1After) ← mergeLists fuel l1 ov
          pure (res, dset dict1 k (.list l1After))
        | _, _ => pure (v2, dict1)
      let (restPairs, d1Final) ← mergeKeys fuel d1After override rest
      .ok ((k, merged) :: restPairs, d1Final)
    | some v1, Option.none => do
      let (restPairs, d1Final) ← mergeKeys fuel dict1 override rest
      .ok ((k, v1) :: restPairs, d1Final)
    | Option.none, some v2 => do
      let (restPairs, d1Final) ← mergeKeys fuel dict1 override rest
      .ok ((k, v2) :: restPairs, d1Final)
    | Option.none, Option.none => mergeKeys fuel dict1 override rest
termination_by keys => (fuel, keys.length + 1)

end

/-! ### Macro evaluator (config.py lines 109-232) -/

/-- The dollar character, written by code point to keep macro markers out of
string literals. -/
def dollarChar : Char := Char.ofNat 36

/-- The opening-brace character of a `${name}` marker. -/
def lbraceChar : Char := Char.ofNat 123

/-- The closing-brace character of a `${name}` marker. -/
def rbraceChar : Char := Char.ofNat 125

/-- Builds the literal macro marker for `name` (a dollar sign, an opening
brace, the name, a closing brace). -/
def macroStr (name : String) : String :=
  String.mk (dollarChar :: lbraceChar :: name.data ++ [rbraceChar])

/-- Scans for the closing brace of a marker, returning the enclosed name.
Mirrors the non-greedy group of the regex `\ $\ {(.*?)\ }` in config.py
line 179: the name extends to the first closing brace. -/
def scanName : List Char → Option String
  | [] => Option.none
  | c :: rest =>
    if c = rbraceChar then some ""
    else match scanName rest with
      | some nm => some (String.mk (c :: nm.data))
      | Option.none => Option.none

/-- First macro name in a character stream: the inner group of the first
match of the regex in config.py line 180. -/
def findMacroIn : List Char → Option String
  | [] => Option.none
  | c :: rest =>
    match rest with
    | c2 :: rest2 =>
      if c = dollarChar ∧ c2 = lbraceChar then
        match scanName rest2 with
        | some nm => some nm
        | Option.none => findMacroIn rest
      else findMacroIn rest
    | [] => Option.none

/-- Python `len(re.findall(..., value)) > 0`: the string contains at least
one `${name}` marker. -/
def hasMacro (s : String) : Bool := (findMacroIn s.data).isSome

/-- The process-wide timestamp captured at module import time (config.py
line 35).  Its exact digits are irrelevant to every claim; it is modelled
as a fixed marker-free string. -/
def CURRENT_DATETIME : String := "20260101_000000"

/-- Errors raised by the macro evaluator. -/
inductive MacroErr where
  /-- The `KeyError` of config.py line 186: unknown macro function name. -/
  | unknownMacro (name : String)
  /-- The `KeyError` of config.py lines 126 and 143: no ancestor defines the key. -/
  | noInherit (term : Key)
  /-- Fuel exhaustion (models non-termination of the rewrite loop). -/
  | noFuel
deriving DecidableEq, Repr

/-- Embeds `Config._inherit_recurse` (config.py lines 129-143): walk the
ancestor chain, innermost first, and return the value of the first ancestor
mapping that defines `term`; `KeyError` at the root.  Upward `PARENT` links
are modelled by the explicit ancestor list, each entry being the ancestor's
contents at the time the evaluator descended past it. -/
def inheritRecurse (ancestors : List Entries) (term : Key) :
    Except MacroErr Value :=
  match ancestors with
  | [] => .error (.noInherit term)
  | a :: rest =>
    match dlookup a term with
    | some v => .ok v
    | Option.none => inheritRecurse rest term

/-- Embeds `Config._evaluate_macro` (config.py lines 164-188) together with
the built-in macro functions `_inherit` and `_datetime`.  `vars` is the
constants table `self._vars`; `ancestors` is the chain of mappings strictly
above the mapping holding the value (`heirarchy['PARENT']` upward); `term`
is the key at which the value sits.  Python loops while the value is a
string containing a marker: a constant name returns the constant's value
outright (config.py line 182), `inherit` replaces the whole value with the
nearest ancestor's value for `term`, `datetime` substitutes the timestamp,
and any other name raises `KeyError`. -/
def evalMacro (fuel : Nat) (vars : Entries) (ancestors : List Entries)
    (term : Key) : Value → Except MacroErr Value
  | v =>
    match fuel with
    | 0 => .error .noFuel
    | fuel + 1 =>
      match v with
      | .str s =>
        match findMacroIn s.data with
        | Option.none => .ok (.str s)
        | some name =>
          if dcontains vars (.str name) then
            .ok ((dlookup vars (.str name)).getD .none)
          else if name = "inherit" then do
            -- config.py line 125: `'PARENT' not in heirarchy.keys()` means the
            -- mapping is the root, i.e. the ancestor chain is empty.
            match ancestors with
            | [] => .error (.noInherit term)
            | a :: rest => do
              let v2 ← inheritRecurse (a :: rest) term
              evalMacro fuel vars ancestors term v2
          else if name = "datetime" then
            evalMacro fuel vars ancestors term
              (.str (s.replace (macroStr "datetime") CURRENT_DATETIME))
          else
            .error (.unknownMacro name)
      | other => .ok other

mutual

/-- Embeds `Config._evaluate_vars` (config.py lines 190-232), which mutates
the tree in place; the returned entries are the contents of `parent` after
the call.  The transient `PARENT` back-links are modelled by `ancestors`
(innermost first): when descending into a nested mapping, the current
contents of the enclosing mapping (earlier keys already rewritten, later
keys still raw) are pushed onto the chain, matching what the live Python
reference lets `inherit` observe.  Keys literally named `PARENT` are
skipped by the traversal and stripped on exit, exactly as the source's
link bookkeeping does. -/
def evalVars (fuel : Nat) (vars : Entries) (ancestors : List Entries)
    (parent : Entries) : Except MacroErr Entries :=
  match fuel with
  | 0 => .error .noFuel
  | fuel + 1 => do
    let cur ← evalVarsKeys fuel vars ancestors parent (dkeys parent)
    -- config.py lines 231-232: remove the reverse linkage on the way out.
    .ok (cur.filter fun e => e.1 ≠ .str "PARENT")
termination_by (fuel, 0, 0)

/-- Processes the snapshot of keys taken at entry to `_evaluate_vars`
(config.py line 203), threading the mapping's current contents. -/
def evalVarsKeys (fuel : Nat) (vars : Entries) (ancestors : List Entries)
    (cur : Entries) : List Key → Except MacroErr Entries
  | [] => .ok cur
  | k :: rest => do
    if k = .str "PARENT" then
      evalVarsKeys fuel vars ancestors cur rest
    else
      match dlookup cur k with
      | Option.none => evalVarsKeys fuel vars ancestors cur rest
      | some childVar => do
        let newVal ←
          match childVar with
          | .dict d =>
            -- config.py lines 212-214: link child to parent, recurse.
            (Value.dict · ) <$> evalVars fuel vars (cur :: ancestors) d
          | .list xs =>
            -- config.py lines 218-224: list elements share the list's key.
            (Value.list · ) <$> evalListElems fuel vars (cur :: ancestors) ancestors k xs
          | .str s =>
            -- config.py lines 227-228.
            evalMacro fuel vars ancestors k (.str s)
          | other => pure other
        evalVarsKeys fuel vars ancestors (dset cur k newVal) rest
termination_by keys => (fuel, 1, keys.length)

/-- Processes the elements of a list value (config.py lines 219-224):
mappings are linked to the list's parent and recursed into, strings are
macro-evaluated against the list's own key, everything else — including
nested lists — is left untouched. -/
def evalListElems (fuel : Nat) (vars : Entries) (childAncestors : List Entries)
    (ancestors : List Entries) (k : Key) :
    List Value → Except MacroErr (List Value)
  | [] => .ok []
  | x :: xs => do
    let x2 ←
      match x with
      | .dict d => (Value.dict · ) <$> evalVars fuel vars childAncestors d
      | .str s => evalMacro fuel vars ancestors k (.str s)
      | other => pure other
    let rest ← evalListElems fuel vars childAncestors ancestors k xs
    .ok (x2 :: rest)
termination_by xs => (fuel, 0, xs.length + 1)

end

/-! ### Class registry and polymorphism resolution
(configurable_meta.py, configurable_factory.py lines 63-104,
helper_funcs.py lines 28-66) -/

/-- Declared shape of a sub-component field, i.e. the values of
`__CONFIGURABLES__`: a `Configurable` subclass (a `ConfigurableMeta`
instance, identified by its `__name__`), a `ConfigList(subtype)` wrapper, or
a `ConfigCollection(subtype)` wrapper. -/
inductive CType where
  | cls (name : String)
  | configList (sub : CType)
  | configCollection (sub : CType)
deriving DecidableEq, Repr

/-- Static description of one `Configurable` class: its `__name__`, its
direct subclasses (`cls.__subclasses__()`), and its accumulated `__PARAMS__`
keys, `__PARAM_DEFAULTS__` and `__CONFIGURABLES__` dictionaries as built by
`ConfigurableMeta.__new__`. -/
structure ClassSpec where
  name : String
  subclasses : List String
  params : List String
  paramDefaults : Entries
  configurables : List (String × CType)
deriving Repr

/-- Process-wide registry of loaded `Configurable` classes. -/
abbrev World := List ClassSpec

/-- Finds a class record by name. -/
def findClass (w : World) (n : String) : Option ClassSpec :=
  w.find? (fun c => c.name = n)

/-- Accumulated `__PARAMS__` keys of a class ([] when the class is unknown,
which never happens for classes obtained from resolution). -/
def clsParams (w : World) (n : String) : List String :=
  ((findClass w n).map (fun c => c.params)).getD []

/-- Accumulated `__PARAM_DEFAULTS__` of a class. -/
def clsDefaults (w : World) (n : String) : Entries :=
  ((findClass w n).map (fun c => c.paramDefaults)).getD []

/-- Accumulated `__CONFIGURABLES__` of a class. -/
def clsConfigurables (w : World) (n : String) : List (String × CType) :=
  ((findClass w n).map (fun c => c.configurables)).getD []

/-- Embeds `Configurable._all_subclasses` (configurable.py lines 170-179):
direct subclasses plus, recursively, their subclasses.  Python dedups
through a `set` with unspecified order; we keep the DFS order and possible
duplicates, which agree on membership (nothing in the source depends on
order or multiplicity).  The recursion depth is bounded by the number of
registered classes because a Python class hierarchy is acyclic; the bound
makes the function structurally total. -/
def allSubclassesAux (w : World) : Nat → String → List String
  | 0, _ => []
  | bound + 1, n =>
    match findClass w n with
    | Option.none => []
    | some c => c.subclasses ++ c.subclasses.flatMap (allSubclassesAux w bound)

/-- Transitive subclasses of a class, with the depth bound instantiated. -/
def allSubclasses (w : World) (n : String) : List String :=
  allSubclassesAux w w.length n

/-- Repeatedly unwraps `ConfigList` / `ConfigCollection` wrappers, as the
`while isinstance(base_class, (ConfigCollection, ConfigList))` loop of
configurable_factory.py lines 79-80 does, yielding the underlying class. -/
def unwrapCType : CType → String
  | .cls n => n
  | .configList s => unwrapCType s
  | .configCollection s => unwrapCType s

/-- Candidate class names for resolution: `base_class._all_subclasses() +
[base_class]`, by name (configurable_factory.py lines 83-84,
helper_funcs.py lines 44-45). -/
def candidateNames (w : World) (base : String) : List String :=
  allSubclasses w base ++ [base]

/-- Errors raised during polymorphism resolution. -/
inductive ResolveErr where
  /-- The `KeyError` raised when no configuration key names a candidate class
  (configurable_factory.py line 95, helper_funcs.py line 56), carrying the
  candidate list and supplied keys that the source logs for diagnosis. -/
  | noMatch (candidates : List String) (requested : List Key)
  /-- A Python `AttributeError` on the named attribute.  In particular the
  ambiguous branch of `get_class` (configurable_factory.py line 104)
  evaluates `[cl.__name__ for cl in matching_classes]` where
  `matching_classes` holds the matching key strings, so the f-string raises
  `AttributeError` on `__name__` before the intended `KeyError` exists. -/
  | attributeError (attr : String)
deriving DecidableEq, Repr

/-- Configuration keys that name a candidate class:
`[c_field for c_field in config_fields if c_field in feature_class_names]`
(configurable_factory.py line 88, helper_funcs.py line 49).  Int keys never
equal a class-name string. -/
def matchingKeys (cands : List String) (m : Entries) : List String :=
  (dkeys m).filterMap fun k =>
    match k with
    | .str s => if s ∈ cands then some s else Option.none
    | .int _ => Option.none

/-- Embeds `ConfigurableFactory.get_class` (configurable_factory.py lines
63-104): unwrap composite wrappers, enumerate candidates, match against the
config keys.  Zero matches raise the no-match `KeyError`; a unique match
returns the class; several matches reach line 104, whose message
construction raises `AttributeError` (see `ResolveErr.attributeError`).
A config without `.keys()` (a non-dict) raises `AttributeError`. -/
def getClass (w : World) (base : CType) (config : Value) :
    Except ResolveErr String :=
  let b := unwrapCType base
  let cands := candidateNames w b
  match config with
  | .dict m =>
    match matchingKeys cands m with
    | [] => .error (.noMatch cands (dkeys m))
    | [c] => .ok c
    | _ :: _ :: _ => .error (.attributeError "__name__")
  | _ => .error (.attributeError "keys")

/-- Embeds `helper_funcs.class_for_config` (helper_funcs.py lines 28-66).
Unlike `get_class` it takes the base class directly (no wrapper unwrapping),
raises the no-match `KeyError` only when zero keys match, and on several
matches returns the whole list of matching classes (helper_funcs.py lines
62-66) instead of raising. -/
def classForConfig (w : World) (base : String) (config : Value) :
    Except ResolveErr (String ⊕ List String) :=
  let cands := candidateNames w base
  match config with
  | .dict m =>
    match matchingKeys cands m with
    | [] => .error (.noMatch cands (dkeys m))
    | [c] => .ok (.inl c)
    | c1 :: c2 :: rest => .ok (.inr (c1 :: c2 :: rest))
  | _ => .error (.attributeError "keys")

/-! ### Verification pass (configurable.py lines 136-158) -/

/-- Errors raised by `Configurable._verify_config`. -/
inductive VerifyErr where
  /-- The `ValueError` of configurable.py line 154: required keys absent. -/
  | missingKeys (missing : List String) (clsName : String)
  /-- The `ValueError` of configurable.py line 158: undeclared keys present. -/
  | extraneousKeys (extraneous : List Key) (clsName : String)
deriving DecidableEq, Repr

/-- Python `set(template) - set(cfg.keys())` as an ordered list. -/
def missingOf (cfg : Entries) (template : List String) : List String :=
  template.filter fun t => ¬ dcontains cfg (.str t)

/-- Python `set(cfg.keys()) - set(template)` as an ordered list. -/
def extraneousOf (cfg : Entries) (template : List String) : List Key :=
  (dkeys cfg).filter fun k => ¬ template.any (fun t => Key.str t = k)

/-- Embeds `Configurable._verify_config` (configurable.py lines 136-158):
compute the missing required keys and raise if any; only then compute the
extraneous keys and raise if any; otherwise return. -/
def verifyConfig (clsName : String) (cfg : Entries) (template : List String) :
    Except VerifyErr Unit :=
  match missingOf cfg template with
  | m :: rest => .error (.missingKeys (m :: rest) clsName)
  | [] =>
    match extraneousOf cfg template with
    | e :: rest => .error (.extraneousKeys (e :: rest) clsName)
    | [] => .ok ()

/-! ### Default population pass (configurable.py lines 90-134) -/

/-- Errors surfacing from default population and object construction. -/
inductive CfgErr where
  | resolve (e : ResolveErr)
  | verify (e : VerifyErr)
  /-- Python `KeyError` from a dict subscript on a missing key. -/
  | keyError (k : Key)
  /-- Python `AttributeError` on the named attribute. -/
  | attributeError (attr : String)
  /-- Python `TypeError` (e.g. subscripting or iterating a non-container). -/
  | typeError (what : String)
  /-- The precautionary `ValueError` of configurable.py line 81. -/
  | valueError (param : String)
  | macroFail (e : MacroErr)
  | noFuel
deriving DecidableEq, Repr

/-- Declared sub-component type of a field, from `cls.__CONFIGURABLES__`. -/
def cfgTypeOf (w : World) (cn : String) (f : String) : Option CType :=
  ((clsConfigurables w cn).find? (fun e => e.1 = f)).map (fun e => e.2)

mutual

/-- Embeds the classmethod `Configurable.populate_defaults` (configurable.py
lines 90-99): subscript the block at the class's own name and populate that
inner mapping in place; the returned value is the contents of `cfg` after
the call.  A missing name key raises `KeyError`; a non-dict raises
`TypeError` on the subscript. -/
def populateDefaults (w : World) (fuel : Nat) (cn : String) (cfg : Value) :
    Except CfgErr Value :=
  match cfg with
  | .dict m =>
    match slookup m cn with
    | Option.none => .error (.keyError (.str cn))
    | some inner => do
      let inner2 ← populateRecurse w fuel cn inner (clsDefaults w cn)
      .ok (.dict (dset m (.str cn) inner2))
  | _ => .error (.typeError "subscript")
termination_by (fuel, 0, 1)

/-- Embeds `Configurable._populate_defaults_recurse` (configurable.py lines
101-134), which mutates `cfg` in place; the returned value is the contents
of the caller's `cfg` after the call.  When `cfg` is `None` the source
rebinds the local name to a fresh dict (line 116), so every insertion is
invisible to the caller and the caller's value stays `None` — but errors
raised while processing still propagate.  A `cfg` that is neither `None`
nor a dict raises `AttributeError` at the first attribute access (`keys`
in the defaults loop, or `items` in the sub-component loop when the
defaults table is empty). -/
def populateRecurse (w : World) (fuel : Nat) (cn : String) (cfg : Value)
    (defaults : Entries) : Except CfgErr Value :=
  match fuel with
  | 0 => .error .noFuel
  | fuel + 1 =>
    match cfg with
    | .none => do
      let m1 ← populatePhase1 w fuel cn [] defaults
      let _ ← populatePhase2 w fuel cn m1 (dkeys m1)
      .ok .none
    | .dict m => do
      let m1 ← populatePhase1 w fuel cn m defaults
      let m2 ← populatePhase2 w fuel cn m1 (dkeys m1)
      .ok (.dict m2)
    | _ =>
      if defaults.isEmpty then .error (.attributeError "items")
      else .error (.attributeError "keys")
termination_by (fuel, 0, 0)

/-- Embeds the defaults loop of `_populate_defaults_recurse`
(configurable.py lines 119-124): insert each absent default; when the
default value is a dict and the key is present, recurse into the existing
value to fill missing nested keys. -/
def populatePhase1 (w : World) (fuel : Nat) (cn : String) (m : Entries) :
    Entries → Except CfgErr Entries
  | [] => .ok m
  | (k, v) :: rest =>
    if ¬ dcontains m k then
      populatePhase1 w fuel cn (dset m k v) rest
    else
      match v with
      | .dict dv => do
        let sub := (dlookup m k).getD .none
        let sub2 ← populateRecurse w fuel cn sub dv
        populatePhase1 w fuel cn (dset m k sub2) rest
      | _ => populatePhase1 w fuel cn m rest
termination_by defaults => (fuel, 1, defaults.length + 1)

/-- Embeds the sub-component loop of `_populate_defaults_recurse`
(configurable.py lines 127-134): for each key of the (already
default-populated) mapping that names a declared sub-component with a
non-`None` value, and whose declared type is a class (`inspect.isclass`
rules out the `ConfigList` / `ConfigCollection` wrapper instances), resolve
the concrete class and populate the nested block's defaults. -/
def populatePhase2 (w : World) (fuel : Nat) (cn : String) (m : Entries) :
    List Key → Except CfgErr Entries
  | [] => .ok m
  | k :: rest => do
    let v := (dlookup m k).getD .none
    match k with
    | .str f =>
      match cfgTypeOf w cn f, v with
      | some (.cls _), .none => populatePhase2 w fuel cn m rest
      | some (.cls base), sub => do
        let subcls ←
          match getClass w (.cls base) sub with
          | .ok c => pure c
          | .error e => .error (.resolve e)
        let sub2 ← populateDefaults w fuel subcls sub
        populatePhase2 w fuel cn (dset m k sub2) rest
      | _, _ => populatePhase2 w fuel cn m rest
    | .int _ => populatePhase2 w fuel cn m rest
termination_by keys => (fuel, 1, keys.length + 1)

end

/-! ### Construction engine
(configurable_factory.py lines 36-61, configurable.py lines 50-88,
config.py lines 50-91) -/

/-- Python truthiness of a configuration value, for the
`if not cfg[self.__class__.__name__]` test of configurable.py line 58. -/
def pyFalsy : Value → Bool
  | .none => true
  | .int n => n = 0
  | .str s => s.isEmpty
  | .bool b => ¬ b
  | .list xs => xs.isEmpty
  | .dict m => m.isEmpty

/-- A value held by a constructed object graph: a raw configuration value
for plain params, a constructed `Configurable` (its class name, the
contents of its `_cfg`, and its `_config_instances`), or a list/dict of
constructed objects for `ConfigList` / `ConfigCollection` params. -/
inductive Obj where
  | raw (v : Value)
  | inst (className : String) (storedCfg : Entries) (instances : List (String × Obj))
  | objList (xs : List Obj)
  | objDict (entries : List (Key × Obj))
deriving Repr

/-- Result of `Configurable.__init__`: the constructed instance, whether
`self._cfg` is the very dict object the caller passed in (configurable.py
line 62) rather than a fresh one (line 59), and the contents of the
caller's dict after construction. -/
structure InitResult where
  inst : Obj
  storedCfg : Entries
  aliased : Bool
  callerAfter : Entries
deriving Repr

/-- Reflects in-place mutations of shared nested containers back into a
dict that was shallow-copied: after `copy = dict(orig)` (or `copy.copy`),
a later in-place mutation of a dict- or list-valued entry is visible
through both top-level dicts, while rebinding a scalar entry of the copy is
not.  Given the original entries and the copy's final contents, this is the
original dict's final contents. -/
def mapShared (orig post : Entries) : Entries :=
  orig.map fun e =>
    match e.2 with
    | .dict _ => (e.1, (dlookup post e.1).getD e.2)
    | .list _ => (e.1, (dlookup post e.1).getD e.2)
    | _ => e

/-- Embeds `Config.__init__` (config.py lines 50-91) for a dict source and
empty `custom_params`, which is how `ConfigurableFactory.construct` invokes
it (configurable_factory.py line 58): copy the entries into the new
`Config`; extract a non-empty `Constants` table and delete its key from the
copy (lines 71-73); the two `override` calls merge with an empty dict and
leave everything unchanged (lines 81-88); evaluate macros twice (lines 85
and 91).  Returns the new Config object's contents.  A non-dict source
falls into the `yaml.safe_load` branch and fails; a `Constants` value that
is not a mapping makes `len(self._vars)` fail. -/
def configWrap (fuel : Nat) (cfg : Value) : Except CfgErr Entries :=
  match cfg with
  | .dict m => do
    let (vars, c1) :=
      match slookup m "Constants" with
      | some (.dict vs) =>
        if vs.isEmpty then (([] : Entries), m)
        else (vs, m.filter fun e => e.1 ≠ .str "Constants")
      | some _ => (([] : Entries), m)  -- handled below
      | Option.none => (([] : Entries), m)
    match slookup m "Constants" with
    | some (.dict _) | Option.none => do
      let c2 ←
        match evalVars fuel vars [] c1 with
        | .ok c => pure c
        | .error e => .error (.macroFail e)
      match evalVars fuel vars [] c2 with
      | .ok c => .ok c
      | .error e => .error (.macroFail e)
    | some _ => .error (.typeError "len")
  | _ => .error (.typeError "yaml")

mutual

/-- Embeds `Configurable.__init__` (configurable.py lines 50-88): subscript
the caller's dict at the class name; if the inner block is falsy, store a
fresh `(name -> empty dict)` in `self._cfg`, otherwise store the caller's
dict itself; populate defaults in place; verify; then construct each
declared param, building sub-objects for non-`None` values of declared
sub-component fields.  The returned `callerAfter` is the contents of the
caller's dict after the call — identical to `storedCfg` exactly when the
two are the same object. -/
def configurableInit (w : World) (fuel : Nat) (cn : String) (cfg : Entries) :
    Except CfgErr InitResult :=
  match fuel with
  | 0 => .error .noFuel
  | fuel + 1 => do
    let inner ←
      match slookup cfg cn with
      | Option.none => .error (.keyError (.str cn))
      | some v => pure v
    let aliased := ! pyFalsy inner
    let stored0 := if pyFalsy inner then [((Key.str cn), Value.dict [])] else cfg
    let inner0 := if pyFalsy inner then Value.dict [] else inner
    let inner1 ← populateRecurse w fuel cn inner0 (clsDefaults w cn)
    let im ←
      match inner1 with
      | .dict im => pure im
      | _ => .error (.attributeError "keys")
    match verifyConfig cn im (clsParams w cn) with
    | .error e => .error (.verify e)
    | .ok () => do
      let (instances, imFinal) ← initParams w fuel cn im (clsParams w cn)
      let stored2 := dset stored0 (.str cn) (.dict imFinal)
      .ok { inst := .inst cn stored2 instances
            storedCfg := stored2
            aliased := aliased
            callerAfter := if aliased then stored2 else cfg }
termination_by (fuel, 2, 0, 0)

/-- Embeds the param-construction loop of `Configurable.__init__`
(configurable.py lines 76-88), threading the contents of the inner block
(sub-construction mutates the nested blocks it shares with it). -/
def initParams (w : World) (fuel : Nat) (cn : String) (im : Entries) :
    List String → Except CfgErr (List (String × Obj) × Entries)
  | [] => .ok ([], im)
  | p :: rest => do
    match slookup im p with
    | Option.none => .error (.valueError p)
    | some v =>
      match cfgTypeOf w cn p, v with
      | some _, .none => do
        let (instances, imf) ← initParams w fuel cn im rest
        .ok ((p, Obj.raw .none) :: instances, imf)
      | some ct, v => do
        let (obj, vAfter) ← factoryConstruct w fuel ct v
        let (instances, imf) ← initParams w fuel cn (dset im (.str p) vAfter) rest
        .ok ((p, obj) :: instances, imf)
      | Option.none, v => do
        let (instances, imf) ← initParams w fuel cn im rest
        .ok ((p, Obj.raw v) :: instances, imf)
termination_by ps => (fuel, 1, 0, ps.length)

/-- Embeds `ConfigurableFactory.construct` (configurable_factory.py lines
36-61): a `ConfigCollection` type constructs one object per entry of a
mapping, a `ConfigList` one object per element of a sequence, and a
`Configurable` class wraps the value in a `Config` (running constants
extraction and macro evaluation), resolves the concrete class and
instantiates it.  Returns the object and the contents of the `cfg` value
after the call (sub-construction mutates shared nested blocks in place;
for the class case the Config copy shares them with the caller's value,
see `mapShared`). -/
def factoryConstruct (w : World) (fuel : Nat) (ct : CType) (cfg : Value) :
    Except CfgErr (Obj × Value) :=
  match ct, cfg with
  | .configCollection sub, .dict m => do
    let (objs, mAfter) ← constructDict w fuel sub m
    .ok (.objDict objs, .dict mAfter)
  | .configCollection _, _ => .error (.attributeError "items")
  | .configList sub, .list xs => do
    let (objs, xsAfter) ← constructList w fuel sub xs
    .ok (.objList objs, .list xsAfter)
  | .configList _, _ =>
    -- Iterating a non-list where `ConfigList` content is expected; the
    -- source's `for each_cfg in cfg` fails (or degenerates) on such input,
    -- and no claim exercises it.
    .error (.typeError "iter")
  | .cls _, v =>
    match fuel with
    | 0 => .error .noFuel
    | fuel + 1 => do
      let contents ← configWrap fuel v
      let cls ←
        match getClass w ct (.dict contents) with
        | .ok c => pure c
        | .error e => .error (.resolve e)
      let r ← configurableInit w fuel cls contents
      let callerAfter :=
        match v with
        | .dict m => Value.dict (mapShared m r.callerAfter)
        | other => other
      .ok (r.inst, callerAfter)
termination_by (fuel, 0, 2 * sizeOf ct + 1, 0)

/-- Constructs each element of a `ConfigList` value (configurable_factory.py
line 55), threading post-construction contents. -/
def constructList (w : World) (fuel : Nat) (sub : CType) :
    List Value → Except CfgErr (List Obj × List Value)
  | [] => .ok ([], [])
  | x :: xs => do
    let (o, xAfter) ← factoryConstruct w fuel sub x
    let (os, xsAfter) ← constructList w fuel sub xs
    .ok (o :: os, xAfter :: xsAfter)
termination_by xs => (fuel, 0, 2 * sizeOf sub + 2, xs.length)

/-- Constructs each entry of a `ConfigCollection` value
(configurable_factory.py line 53), preserving keys. -/
def constructDict (w : World) (fuel : Nat) (sub : CType) :
    Entries → Except CfgErr (List (Key × Obj) × Entries)
  | [] => .ok ([], [])
  | (k, v) :: rest => do
    let (o, vAfter) ← factoryConstruct w fuel sub v
    let (os, restAfter) ← constructDict w fuel sub rest
    .ok ((k, o) :: os, (k, vAfter) :: restAfter)
termination_by es => (fuel, 0, 2 * sizeOf sub + 2, es.length)

end

/-! ### Parameter descriptor layer (param.py lines 94-123, alias_param.py
lines 97-109) -/

/-- Errors raised by the descriptor `__set__` methods. -/
inductive SetErr where
  /-- Python `AttributeError` on the named attribute. -/
  | attributeError (attr : String)
  /-- Marker for a branch no class of this repository can reach. -/
  | unreachable
deriving DecidableEq, Repr

/-- Every attribute name resolvable on an instance of a `Configurable`
variant: the instance attributes assigned in `__init__` (configurable.py
lines 62, 74, 75), the class attributes and methods of `Configurable`
(configurable.py lines 42-48, 50, 90, 101, 136, 160, 170), and the
variant's own attributes (`extra`: its underscore-prefixed `Param`
descriptors and methods). -/
def configurableAttrNames (extra : List String) : List String :=
  ["_cfg", "_config_factory", "_config_instances",
   "__SCOOCH_NAME__", "__PARAMS__", "__CONFIGURABLES__", "__PARAM_DEFAULTS__",
   "__init__", "populate_defaults", "_populate_defaults_recurse",
   "_verify_config", "cfg", "_all_subclasses"] ++ extra

/-- Embeds `Param.__set__` (param.py lines 94-123) on an instance whose
class contributes the attribute names `extra`.  Its first statement
evaluates `self._name in instance.__PARAM_ALIASES__` (param.py line 105);
`__PARAM_ALIASES__` is defined nowhere in the repository (it occurs only at
that line), so for every repository class the lookup raises
`AttributeError` before any assignment or construction happens, for every
field name and every value.  The code below line 105 (sub-construction,
`_config_instances` and `_cfg` updates, `instance.update_aliases()` — also
undefined anywhere) is unreachable for every repository class and is not
modelled. -/
def paramSet (extra : List String) (_name : String) (_value : Value) :
    Except SetErr Unit :=
  if "__PARAM_ALIASES__" ∈ configurableAttrNames extra then
    .error .unreachable
  else
    .error (.attributeError "__PARAM_ALIASES__")

/-- Attribute names resolvable on an `AliasParam` descriptor object: the
instance attributes set by its constructor (alias_param.py lines 49-53 and
param.py line 73) and the properties/methods of `AliasParam` and `Param`.
There is no attribute `name` — only `_name`. -/
def aliasParamAttrNames : List String :=
  ["_doc", "_type", "_default", "_transform_function", "_source_param_names",
   "_name", "default", "doc", "type", "__init__", "__set_name__",
   "__get__", "__set__"]

/-- Embeds `AliasParam.__set__` (alias_param.py lines 97-109): it
unconditionally raises on every write.  The f-string of the intended
not-settable message evaluates `self.name` (alias_param.py line 107), which
does not exist, so the `AttributeError` actually raised is the failed
attribute lookup rather than the crafted message — an `AttributeError`
reaches the caller either way. -/
def aliasParamSet (_value : Value) : Except SetErr Unit :=
  if "name" ∈ aliasParamAttrNames then .error .unreachable
  else .error (.attributeError "name")

/-! ### Metaclass schema accumulation (configurable_meta.py lines 41-103) -/

mutual

/-- Formalizes the claim's completeness property for a block `v` configured
for variant `cn`: every declared field of the variant is a key of the
block, and every declared sub-component field whose configured value is
non-null is recursively complete for its resolved concrete variant —
including variants reachable through `ConfigList` / `ConfigCollection`
wrappers, per the claim's "every nested sub-component variant reachable
from it". -/
def fieldsComplete (w : World) (fuel : Nat) (cn : String) (v : Value) : Bool :=
  match fuel with
  | 0 => false
  | fuel + 1 =>
    match v with
    | .dict m =>
      (clsParams w cn).all (fun p => dcontains m (.str p)) &&
        fieldsCompleteCfgs w fuel m (clsConfigurables w cn)
    | _ => (clsParams w cn).isEmpty
termination_by (fuel, 0, 0, 0)

/-- Checks each declared sub-component field of a block. -/
def fieldsCompleteCfgs (w : World) (fuel : Nat) (m : Entries) :
    List (String × CType) → Bool
  | [] => true
  | (f, ct) :: rest =>
    (match slookup m f with
      | Option.none => true
      | some .none => true
      | some sub => subComplete w fuel ct sub) &&
      fieldsCompleteCfgs w fuel m rest
termination_by cfgs => (fuel, 1, 0, cfgs.length)

/-- Checks a configured sub-component value against its declared type:
resolve the concrete variant for a single configurable, dive into list and
collection wrappers elementwise, and require the resolved variant's inner
block (when it is a non-null mapping) to be complete in turn.  Values whose
shape precludes resolution are vacuously complete (construction would fail
on them before completeness matters). -/
def subComplete (w : World) (fuel : Nat) (ct : CType) (sub : Value) : Bool :=
  match ct, sub with
  | .cls base, .dict sm =>
    (match getClass w (.cls base) (.dict sm) with
      | .ok c =>
        (match slookup sm c with
          | some (.dict im) => fieldsComplete w fuel c (.dict im)
          | _ => true)
      | .error _ => true)
  | .cls _, _ => true
  | .configList s, .list xs => subCompleteList w fuel s xs
  | .configList _, _ => true
  | .configCollection s, .dict m => subCompleteList w fuel s (m.map Prod.snd)
  | .configCollection _, _ => true
termination_by (fuel, 0, 2 * sizeOf ct + 1, 0)

/-- Elementwise completeness for wrapped collections. -/
def subCompleteList (w : World) (fuel : Nat) (s : CType) :
    List Value → Bool
  | [] => true
  | x :: xs => subComplete w fuel s x && subCompleteList w fuel s xs
termination_by xs => (fuel, 0, 2 * sizeOf s + 2, xs.length)

end

mutual

/-- Formalizes the claim's hypothesis for a block `v` configured for
variant `cn`: the block supplies every declared field lacking a default,
and the same holds recursively for every nested sub-component variant
reachable from it whose configured value is non-null. -/
def suppliesRequired (w : World) (fuel : Nat) (cn : String) (v : Value) : Bool :=
  match fuel with
  | 0 => false
  | fuel + 1 =>
    match v with
    | .dict m =>
      (clsParams w cn).all
        (fun p => dcontains (clsDefaults w cn) (.str p) || dcontains m (.str p)) &&
        suppliesRequiredCfgs w fuel m (clsConfigurables w cn)
    | _ => (clsParams w cn).all (fun p => dcontains (clsDefaults w cn) (.str p))
termination_by (fuel, 0, 0, 0)

/-- Checks each declared sub-component field of a block. -/
def suppliesRequiredCfgs (w : World) (fuel : Nat) (m : Entries) :
    List (String × CType) → Bool
  | [] => true
  | (f, ct) :: rest =>
    (match slookup m f with
      | Option.none => true
      | some .none => true
      | some sub => subSupplies w fuel ct sub) &&
      suppliesRequiredCfgs w fuel m rest
termination_by cfgs => (fuel, 1, 0, cfgs.length)

/-- Mirrors `subComplete` for the hypothesis predicate. -/
def subSupplies (w : World) (fuel : Nat) (ct : CType) (sub : Value) : Bool :=
  match ct, sub with
  | .cls base, .dict sm =>
    (match getClass w (.cls base) (.dict sm) with
      | .ok c =>
        (match slookup sm c with
          | some (.dict im) => suppliesRequired w fuel c (.dict im)
          | _ => true)
      | .error _ => true)
  | .cls _, _ => true
  | .configList s, .list xs => subSuppliesList w fuel s xs
  | .configList _, _ => true
  | .configCollection s, .dict m => subSuppliesList w fuel s (m.map Prod.snd)
  | .configCollection _, _ => true
termination_by (fuel, 0, 2 * sizeOf ct + 1, 0)

/-- Elementwise hypothesis for wrapped collections. -/
def subSuppliesList (w : World) (fuel : Nat) (s : CType) :
    List Value → Bool
  | [] => true
  | x :: xs => subSupplies w fuel s x && subSuppliesList w fuel s xs
termination_by xs => (fuel, 0, 2 * sizeOf s + 2, xs.length)

end

mutual

/-- The amended completeness notion that the source's default population
actually establishes: every field of the variant that has a declared
default is present in the block, recursively through sub-component fields
declared with a direct `Configurable` base whose configured value is a
mapping holding a mapping block for the resolved variant.  Fields declared
through `ConfigList` / `ConfigCollection` wrappers and null inner blocks
are exempt — the source skips them. -/
def defaultsPresentDirect (w : World) (fuel : Nat) (cn : String) (v : Value) : Bool :=
  match fuel with
  | 0 => false
  | fuel + 1 =>
    match v with
    | .dict m =>
      (clsDefaults w cn).all (fun e => dcontains m e.1) &&
        dpdCfgs w fuel m (clsConfigurables w cn)
    | _ => true
termination_by (fuel, 0, 0)

/-- Checks the sub-component fields reached by the source's recursion:
only direct `Configurable` bases, only non-null mapping values, only the
resolved variant's mapping block. -/
def dpdCfgs (w : World) (fuel : Nat) (m : Entries) :
    List (String × CType) → Bool
  | [] => true
  | (f, ct) :: rest =>
    (match ct with
      | .cls base =>
        (match slookup m f with
          | some sub => dpdEntry w fuel base sub
          | Option.none => true)
      | _ => true) &&
      dpdCfgs w fuel m rest
termination_by cfgs => (fuel, 2, cfgs.length)

/-- Checks one configured sub-component value for a direct `Configurable`
base: when it is a mapping that resolves to a concrete variant whose block
is present, that block must be default-populated in turn; every other
shape is exempt. -/
def dpdEntry (w : World) (fuel : Nat) (base : String) (sub : Value) : Bool :=
  match sub with
  | .dict sm =>
    (match getClass w (.cls base) (.dict sm) with
      | .ok c =>
        (match slookup sm c with
          | some inner => defaultsPresentDirect w fuel c inner
          | Option.none => true)
      | .error _ => true)
  | _ => true
termination_by (fuel, 1, 0)

end

/-! ### Observable behaviour of the `cfg` accessor (configurable.py lines
160-168): `copy.copy(self._cfg)` is a shallow copy. -/

/-- Writing `returned[k] = v` on the dict returned by the `cfg` accessor
rebinds an entry of the fresh top-level dict only; returns
`(contents of the returned copy, contents of the instance's _cfg)`. -/
def cfgCopyWriteTop (stored : Entries) (k : Key) (v : Value) :
    Entries × Entries :=
  (dset stored k v, stored)

/-- Writing `returned[k1][k2] = v` mutates a nested dict, which the shallow
copy shares with the instance's `_cfg`: both views change.  Returns
`(contents of the returned copy, contents of the instance's _cfg)`. -/
def cfgCopyWriteNested (stored : Entries) (k1 k2 : Key) (v : Value) :
    Entries × Entries :=
  match dlookup stored k1 with
  | some (.dict m) =>
    let updated := dset stored k1 (.dict (dset m k2 v))
    (updated, updated)
  | _ => (stored, stored)

/-! ### Probe helpers for stating concrete disequalities -/

/-- Reads an integer leaf at a key path (int keys index lists), for
separating two concrete trees by a decidable projection. -/
def probeInt : Value → List Key → Option Int
  | .int n, [] => some n
  | .dict m, k :: rest =>
    match dlookup m k with
    | some v => probeInt v rest
    | Option.none => Option.none
  | .list xs, (.int n) :: rest =>
    match xs.get? n.toNat with
    | some v => probeInt v rest
    | Option.none => Option.none
  | _, _ => Option.none

/-! ### Marker predicates over whole trees (claim-level, from the spec's
words: "no string leaf of the tree contains an unresolved marker") -/

mutual

/-- True when the value contains, anywhere (including inside nested
sequences), a string leaf holding a `${name}` marker. -/
def valueHasMarker : Value → Bool
  | .str s => hasMacro s
  | .list xs => listHasMarker xs
  | .dict m => entriesHasMarker m
  | _ => false

/-- Elementwise marker search. -/
def listHasMarker : List Value → Bool
  | [] => false
  | x :: xs => valueHasMarker x || listHasMarker xs

/-- Entrywise marker search. -/
def entriesHasMarker : Entries → Bool
  | [] => false
  | e :: rest => valueHasMarker e.2 || entriesHasMarker rest

end

/-- All constant-table values are free of markers everywhere. -/
def varsMarkerFree (vars : Entries) : Bool :=
  vars.all fun e => ¬ valueHasMarker e.2

mutual

/-- The positions `_evaluate_vars` actually visits are marker-free: string
values of mappings, and string elements of list values of mappings —
recursively through nested mappings, but not through sequences inside
sequences, which the traversal never enters. -/
def cleanShallow : Entries → Bool
  | [] => true
  | e :: rest => cleanValShallow e.2 && cleanShallow rest

/-- Clean check for one mapping value. -/
def cleanValShallow : Value → Bool
  | .str s => ¬ hasMacro s
  | .dict m => cleanShallow m
  | .list xs => cleanListShallow xs
  | _ => true

/-- Clean check for the elements of a list value: strings and mappings are
checked, nested sequences are exempt (unvisited). -/
def cleanListShallow : List Value → Bool
  | [] => true
  | x :: xs =>
    (match x with
      | .str s => ¬ hasMacro s
      | .dict m => cleanShallow m
      | _ => true) && cleanListShallow xs

end

mutual

/-- Every visited string leaf either has no marker or its first marker
names a constant of `vars` (so macro evaluation resolves it in one step by
wholesale substitution). -/
def constResolvable (vars : Entries) : Entries → Bool
  | [] => true
  | e :: rest => constResolvableVal vars e.2 && constResolvable vars rest

/-- Per-value form of `constResolvable`. -/
def constResolvableVal (vars : Entries) : Value → Bool
  | .str s =>
    (match findMacroIn s.data with
      | some n => dcontains vars (.str n)
      | Option.none => true)
  | .dict m => constResolvable vars m
  | .list xs => constResolvableList vars xs
  | _ => true

/-- Elementwise form of `constResolvable` (nested sequences exempt, they
are unvisited). -/
def constResolvableList (vars : Entries) : List Value → Bool
  | [] => true
  | x :: xs =>
    (match x with
      | .str s =>
        (match findMacroIn s.data with
          | some n => dcontains vars (.str n)
          | Option.none => true)
      | .dict m => constResolvable vars m
      | _ => true) && constResolvableList vars xs

end

/-- Keys of a mapping are pairwise distinct (every Python dict satisfies
this; it is needed because the embedding represents dicts as entry lists). -/
def keysNodupB : Entries → Bool
  | [] => true
  | (k, _) :: rest => ¬ dcontains rest k && keysNodupB rest

mutual

/-- Every mapping reachable in the tree (through mapping values and list
elements) has pairwise-distinct keys. -/
def treeNodup : Entries → Bool
  | [] => true
  | e :: rest => valNodup e.2 && treeNodup rest

/-- Per-value form of `treeNodup`. -/
def valNodup : Value → Bool
  | .dict m => keysNodupB m && treeNodup m
  | .list xs => listNodup xs
  | _ => true

/-- Elementwise form of `treeNodup`. -/
def listNodup : List Value → Bool
  | [] => true
  | x :: xs => valNodup x && listNodup xs

end

/-- All constant-table values are clean at the positions macro evaluation
can store them into (see `cleanValShallow`). -/
def varsCleanShallow (vars : Entries) : Bool :=
  vars.all fun e => cleanValShallow e.2

/-! ### Claim-level predicates for the merge engine (claims C5, C6) -/

mutual

/-- No key of both trees pairs a sequence value of the base with a
non-empty all-int-keyed patch mapping — the only merge situation that
writes into the base in place (claim C5, amended). -/
def noListPatch : Entries → Entries → Bool
  | [], _ => true
  | (k, v1) :: rest, ov =>
    (match dlookup ov k with
      | some v2 => pairNoPatch v1 v2
      | Option.none => true) && noListPatch rest ov

/-- Value-pair form of `noListPatch`. -/
def pairNoPatch : Value → Value → Bool
  | .dict a, .dict b => noListPatch a b
  | .list _, .dict m => ¬ allIntKeys m || m.isEmpty
  | _, _ => true

end

/-- The position Python's indexing addresses: `len + idx` for negative
indices, `idx` otherwise (claim C6, amended). -/
def patchPos (len : Nat) (idx : Int) : Nat :=
  if idx < 0 then ((len : Int) + idx).toNat else idx.toNat

/-- The index an entry of an all-int-keyed patch carries. -/
def keyInt : Key → Int
  | .int n => n
  | .str _ => 0

/-- A patch whose values are not mappings, so every index is patched by
plain replacement (no recursive merging). -/
def noDictValues (patch : Entries) : Bool :=
  patch.all fun e => match e.2 with | .dict _ => false | _ => true

/-- Claim-level sparse patching for scalar-valued patches: each entry
replaces the element at its (Python-normalized) position, in patch order. -/
def applyScalarPatch (base : List Value) : Entries → List Value
  | [] => base
  | (k, v) :: rest => applyScalarPatch (lset base (patchPos base.length (keyInt k)) v) rest

/-- The first patch entry Python's per-entry checks reject, and the error
it raises: `ValueError` for an index at or beyond the length, `IndexError`
for an index below `-len`. -/
def firstBadErr (len : Nat) : Entries → Option MergeErr
  | [] => Option.none
  | (k, _) :: rest =>
    if keyInt k ≥ (len : Int) then some (.outOfRange (keyInt k) len)
    else if keyInt k < -(len : Int) then some (.indexError (keyInt k))
    else firstBadErr len rest

/-! ### Concrete instances used by the claims -/

/-- The world of the spec's own resolution example: a base capability
`Thing` with concrete variants `Foo` and `Bar`. -/
def thingWorld : World :=
  [{ name := "Thing", subclasses := ["Foo", "Bar"], params := [],
     paramDefaults := [], configurables := [] },
   { name := "Foo", subclasses := [], params := [],
     paramDefaults := [], configurables := [] },
   { name := "Bar", subclasses := [], params := [],
     paramDefaults := [], configurables := [] }]

/-- A variant `T` holding a `ConfigList` of `S` sub-components, where `S`
has one defaulted field — the shape on which default population skips the
composite wrapper (claim C3). -/
def listWorld : World :=
  [{ name := "T", subclasses := [], params := ["subs"], paramDefaults := [],
     configurables := [("subs", .configList (.cls "S"))] },
   { name := "S", subclasses := [], params := ["a"],
     paramDefaults := [(.str "a", .int 1)], configurables := [] }]

/-- A `T` block supplying one `S` element with an empty inner block. -/
def listBlock : Value :=
  .dict [(.str "subs", .list [.dict [(.str "S", .dict [])]])]

/-- A variant `C` with a defaulted field `a` and an undefaulted field `b`
(claim C9). -/
def cWorld : World :=
  [{ name := "C", subclasses := [], params := ["a", "b"],
     paramDefaults := [(.str "a", .int 1)], configurables := [] }]

/-- A caller's configuration dict supplying only `b` for `C`. -/
def cCaller : Entries := [(.str "C", .dict [(.str "b", .int 2)])]

/-- The contents `C(cCaller)` leaves behind in the caller's dict: default
population inserted `a` in place. -/
def cStored : Entries :=
  [(.str "C", .dict [(.str "b", .int 2), (.str "a", .int 1)])]

/-! ## Helper lemmas -/

theorem dlookup_dset_self (m : Entries) (k : Key) (v : Value) :
    dlookup (dset m k v) k = some v := by
  induction m with
  | nil => simp [dset, dlookup]
  | cons e rest ih =>
    by_cases h : e.1 = k <;> simp [dset, dlookup, h, ih]

theorem dlookup_dset_ne (m : Entries) (k k2 : Key) (v : Value) (h : k2 ≠ k) :
    dlookup (dset m k v) k2 = dlookup m k2 := by
  induction m with
  | nil =>
    have hk : k ≠ k2 := fun hh => h hh.symm
    simp [dset, dlookup, hk]
  | cons e rest ih =>
    by_cases he : e.1 = k
    · subst he
      simp [dset, dlookup, Ne.symm h]
    · simp only [dset, if_neg he, dlookup]
      by_cases h2 : e.1 = k2 <;> simp [h2, ih]

theorem dcontains_dset (m : Entries) (k k2 : Key) (v : Value) :
    dcontains (dset m k v) k2 = (dcontains m k2 || decide (k2 = k)) := by
  by_cases h : k2 = k
  · subst h
    simp [dcontains, dlookup_dset_self]
  · simp [dcontains, dlookup_dset_ne m k k2 v h, h]

theorem dkeys_dset_of_contains (m : Entries) (k : Key) (v : Value)
    (h : dcontains m k = true) : dkeys (dset m k v) = dkeys m := by
  induction m with
  | nil => simp [dcontains, dlookup] at h
  | cons e rest ih =>
    by_cases he : e.1 = k
    · simp [dset, he, dkeys]
    · simp only [dcontains, dlookup, he, if_neg] at h
      simp only [dset, if_neg he, dkeys, List.map_cons, List.cons.injEq, true_and]
      exact ih h

theorem dset_eq_self (m : Entries) (k : Key) (v : Value)
    (h : dlookup m k = some v) : dset m k v = m := by
  induction m with
  | nil => simp [dlookup] at h
  | cons e rest ih =>
    obtain ⟨k1, w⟩ := e
    by_cases he : k1 = k
    · subst he
      simp [dlookup] at h
      subst h
      simp [dset]
    · simp only [dlookup, if_neg he] at h
      simp [dset, he, ih h]

theorem lset_length (l : List Value) (n : Nat) (v : Value) :
    (lset l n v).length = l.length := by
  induction l generalizing n with
  | nil => simp [lset]
  | cons x xs ih =>
    cases n with
    | zero => simp [lset]
    | succ n => simp [lset, ih]

@[simp] theorem errBind {ε α β : Type} (e : ε) (f : α → Except ε β) :
    (Except.error e : Except ε α) >>= f = .error e := rfl

@[simp] theorem okBind {ε α β : Type} (a : α) (f : α → Except ε β) :
    (Except.ok a : Except ε α) >>= f = f a := rfl

@[simp] theorem pureBind {ε α β : Type} (a : α) (f : α → Except ε β) :
    (pure a : Except ε α) >>= f = f a := rfl

@[simp] theorem findMacroIn_inherit :
    findMacroIn (macroStr "inherit").data = some "inherit" := by decide

@[simp] theorem findMacroIn_v : findMacroIn (macroStr "v").data = some "v" := by
  decide

/-! ## Claims -/

/-- Claim C4 [code_bug]: the spec says assigning to a non-alias field of a
constructed Configurable succeeds, stores the value and updates the stored
configuration and dependent aliases, while an alias field raises the
not-settable error.  The code cannot perform any field assignment: the very
first statement of `Param.__set__` (param.py line 105) reads
`instance.__PARAM_ALIASES__`, which no class in the repository defines, so
every write to a declared field — alias or not, whatever the value — raises
`AttributeError` instead.  Here a variant shaped like the example `Batcher`
class (a `_batch_size` Param) rejects the plain write `batch_size = 4`, and
the alias setter also raises an `AttributeError` that is not its crafted
not-settable message (the `self.name` interpolation of alias_param.py line
107 fails first). -/
theorem c4_set_fails :
    paramSet ["_batch_size", "set_data", "get_batch"] "batch_size" (.int 4) =
      .error (.attributeError "__PARAM_ALIASES__") ∧
    aliasParamSet (.int 4) = .error (.attributeError "name") := by
  exact ⟨rfl, rfl⟩

/-- Claim C2 counterexample: a block that has both a missing required field
and an extraneous field triggers only the missing-field error — the
extraneous check never runs, contradicting "both checks always run".  Block
`(x: 1)` against declared fields `[y]` has extraneous key `x`, yet
verification reports only the missing `y`. -/
theorem c2_counterexample :
    verifyConfig "C" [(.str "x", .int 1)] ["y"] =
      .error (.missingKeys ["y"] "C") ∧
    extraneousOf [(.str "x", .int 1)] ["y"] = [.str "x"] := by
  exact ⟨rfl, rfl⟩

theorem missingOf_eq_nil_iff (cfg : Entries) (template : List String) :
    missingOf cfg template = [] ↔
      ∀ t ∈ template, dcontains cfg (.str t) = true := by
  simp [missingOf, List.filter_eq_nil_iff]

theorem extraneousOf_eq_nil_iff (cfg : Entries) (template : List String) :
    extraneousOf cfg template = [] ↔
      ∀ k ∈ dkeys cfg, ∃ t ∈ template, Key.str t = k := by
  simp [extraneousOf, List.filter_eq_nil_iff, List.any_eq_true]

/-- Claim C2 [amended]: verification succeeds exactly when the block's key
set equals the declared field-name set; a missing declared field raises the
missing-required-field error naming all missing fields; an extraneous key
raises the extraneous-field error naming all extraneous keys — but the
missing check runs first and raises immediately, so extraneous keys are
reported only when nothing is missing. -/
theorem c2_verify_amended (cn : String) (cfg : Entries) (template : List String) :
    (verifyConfig cn cfg template = .ok () ↔
      ((∀ t ∈ template, dcontains cfg (.str t) = true) ∧
        (∀ k ∈ dkeys cfg, ∃ t ∈ template, Key.str t = k))) ∧
    (missingOf cfg template ≠ [] →
      verifyConfig cn cfg template = .error (.missingKeys (missingOf cfg template) cn)) ∧
    (missingOf cfg template = [] → extraneousOf cfg template ≠ [] →
      verifyConfig cn cfg template = .error (.extraneousKeys (extraneousOf cfg template) cn)) := by
  refine ⟨?_, ?_, ?_⟩
  · constructor
    · intro h
      cases hm : missingOf cfg template with
      | cons m rest => simp [verifyConfig, hm] at h
      | nil =>
        cases he : extraneousOf cfg template with
        | cons e rest => simp [verifyConfig, hm, he] at h
        | nil =>
          exact ⟨(missingOf_eq_nil_iff cfg template).mp hm,
            (extraneousOf_eq_nil_iff cfg template).mp he⟩
    · rintro ⟨h1, h2⟩
      have hm := (missingOf_eq_nil_iff cfg template).mpr h1
      have he := (extraneousOf_eq_nil_iff cfg template).mpr h2
      simp [verifyConfig, hm, he]
  · intro h
    cases hm : missingOf cfg template with
    | nil => exact absurd hm h
    | cons m rest => simp [verifyConfig, hm]
  · intro hm he
    cases hex : extraneousOf cfg template with
    | nil => exact absurd hex he
    | cons e rest => simp [verifyConfig, hm, hex]

/-- Witness for `c2_verify_amended`: a block with exactly the declared
field passes verification. -/
theorem c2_witness : verifyConfig "C" [(.str "a", .int 1)] ["a"] = .ok () :=
  ((c2_verify_amended "C" [(.str "a", .int 1)] ["a"]).1).mpr (by decide)

theorem dcontains_iff_mem_dkeys (m : Entries) (k : Key) :
    dcontains m k = true ↔ k ∈ dkeys m := by
  induction m with
  | nil => simp [dcontains, dlookup, dkeys]
  | cons e rest ih =>
    by_cases he : e.1 = k
    · simp [dcontains, dlookup, dkeys, he]
    · simp only [dcontains, dlookup, if_neg he, dkeys, List.map_cons, List.mem_cons]
      rw [← dkeys, ← dcontains, ih]
      exact ⟨Or.inr, fun h => h.elim (fun hh => absurd hh.symm he) id⟩

theorem mem_matchingKeys (cands : List String) (m : Entries) (s : String) :
    s ∈ matchingKeys cands m ↔ Key.str s ∈ dkeys m ∧ s ∈ cands := by
  simp only [matchingKeys, List.mem_filterMap]
  constructor
  · rintro ⟨k, hk, hf⟩
    cases k with
    | str s2 =>
      by_cases hc : s2 ∈ cands
      · simp only [if_pos hc, Option.some.injEq] at hf
        subst hf
        exact ⟨hk, hc⟩
      · simp [if_neg hc] at hf
    | int n => simp at hf
  · rintro ⟨hk, hc⟩
    exact ⟨.str s, hk, by simp [hc]⟩

/-- Claim C1 counterexample: on a configuration block naming two candidate
variants, `class_for_config` does not raise an ambiguous-configuration
error — it returns the list of both matching classes (helper_funcs.py lines
62-66) — and `get_class` raises an `AttributeError` carrying no class
names (the `.__name__` access on the matched key strings at
configurable_factory.py line 104 fails while its message is being built),
not an ambiguous-configuration error naming all matches. -/
theorem c1_counterexample :
    classForConfig thingWorld "Thing"
        (.dict [(.str "Foo", .dict []), (.str "Bar", .dict [])]) =
      .ok (.inr ["Foo", "Bar"]) ∧
    getClass thingWorld (.cls "Thing")
        (.dict [(.str "Foo", .dict []), (.str "Bar", .dict [])]) =
      .error (.attributeError "__name__") := by
  exact ⟨rfl, rfl⟩

/-- Claim C1 [amended]: resolution matches the block's string keys against
the transitive-subclass candidate list.  With zero matching keys both
`get_class` and `class_for_config` raise the fatal no-matching-class error
carrying the candidate list and the supplied keys.  With exactly one
matching key both return that unique class, which is a candidate named by
exactly one block key.  With several matching keys `get_class` raises a
fatal `AttributeError` (its intended ambiguous-configuration message fails
to build, naming no matches) while `class_for_config` raises nothing and
returns the list of all matching classes. -/
theorem c1_resolution_amended (w : World) (base : CType) (m : Entries) :
    (matchingKeys (candidateNames w (unwrapCType base)) m = [] →
      getClass w base (.dict m) =
        .error (.noMatch (candidateNames w (unwrapCType base)) (dkeys m)) ∧
      classForConfig w (unwrapCType base) (.dict m) =
        .error (.noMatch (candidateNames w (unwrapCType base)) (dkeys m))) ∧
    (∀ c, matchingKeys (candidateNames w (unwrapCType base)) m = [c] →
      getClass w base (.dict m) = .ok c ∧
      classForConfig w (unwrapCType base) (.dict m) = .ok (.inl c) ∧
      c ∈ candidateNames w (unwrapCType base) ∧
      dcontains m (.str c) = true ∧
      (∀ s, Key.str s ∈ dkeys m → s ∈ candidateNames w (unwrapCType base) → s = c)) ∧
    (∀ c1 c2 cs,
      matchingKeys (candidateNames w (unwrapCType base)) m = c1 :: c2 :: cs →
      getClass w base (.dict m) = .error (.attributeError "__name__") ∧
      classForConfig w (unwrapCType base) (.dict m) = .ok (.inr (c1 :: c2 :: cs))) := by
  refine ⟨?_, ?_, ?_⟩
  · intro h
    constructor
    · simp only [getClass, h]
    · simp only [classForConfig, h]
  · intro c h
    have hc : c ∈ matchingKeys (candidateNames w (unwrapCType base)) m := by
      simp [h]
    rw [mem_matchingKeys] at hc
    refine ⟨by simp only [getClass, h], by simp only [classForConfig, h],
      hc.2, (dcontains_iff_mem_dkeys m (.str c)).mpr hc.1, ?_⟩
    intro s hs hcand
    have : s ∈ matchingKeys (candidateNames w (unwrapCType base)) m :=
      (mem_matchingKeys _ _ _).mpr ⟨hs, hcand⟩
    rw [h] at this
    simpa using this
  · intro c1 c2 cs h
    exact ⟨by simp only [getClass, h], by simp only [classForConfig, h]⟩

/-- Witness for `c1_resolution_amended`: a single-match block resolves to
the unique named variant. -/
theorem c1_witness :
    getClass thingWorld (.cls "Thing") (.dict [(.str "Bar", .dict [])]) =
      .ok "Bar" :=
  ((c1_resolution_amended thingWorld (.cls "Thing")
      [(.str "Bar", .dict [])]).2.1 "Bar" rfl).1

/-- Claim C5 counterexample: merging `(a: [0])` with the sparse list patch
`(a: (0: 1))` mutates the base tree in place — `merge_lists` assigns into
`list1` (generic.py line 56) and the patched list is the base's own list
object — so after the call the base argument reads `(a: [1])`, not its
original value.  Merge is therefore not free of mutation of its inputs. -/
theorem c5_counterexample :
    mergeDicts 9 [(.str "a", .list [.int 0])] [(.str "a", .dict [(.int 0, .int 1)])] =
      .ok ([(.str "a", .list [.int 1])], [(.str "a", .list [.int 1])]) ∧
    ([(.str "a", .list [.int 1])] : Entries) ≠ [(.str "a", .list [.int 0])] := by
  constructor
  · simp [mergeDicts, mergeKeys, mergeLists, mergePatch, allIntKeys,
      dkeys, dcontains, dlookup, dset, lset]
  · simp

theorem dlookup_mem (m : Entries) (k : Key) (v : Value)
    (h : dlookup m k = some v) : (k, v) ∈ m := by
  induction m with
  | nil => simp [dlookup] at h
  | cons e rest ih =>
    obtain ⟨k1, w⟩ := e
    by_cases he : k1 = k
    · subst he
      simp [dlookup] at h
      simp [h]
    · simp only [dlookup, if_neg he] at h
      exact List.mem_cons_of_mem _ (ih h)

theorem noListPatch_spec (d1 ov : Entries) (h : noListPatch d1 ov = true)
    (k : Key) (v1 v2 : Value) (h1 : (k, v1) ∈ d1) (h2 : dlookup ov k = some v2) :
    pairNoPatch v1 v2 = true := by
  induction d1 with
  | nil => simp at h1
  | cons e rest ih =>
    obtain ⟨k1, w1⟩ := e
    simp only [noListPatch, Bool.and_eq_true] at h
    rcases List.mem_cons.mp h1 with heq | hmem
    · obtain ⟨hk, hv⟩ := Prod.mk.injEq .. ▸ heq
      injection heq with hk hv
      subst hk
      subst hv
      rw [h2] at h
      exact h.1
    · exact ih h.2 hmem

/-- Claim C5 [amended]: proved jointly for the three merge functions —
whenever no key of both trees pairs a base sequence with a non-empty
all-int-keyed patch mapping (recursively), a successful merge leaves the
base argument's contents unchanged.  (The counterexample shows the excluded
situation really does mutate the base; determinism holds trivially since
the embedding is a pure function of the two inputs.) -/
theorem c5_merge_amended (fuel : Nat) :
    (∀ d1 ov r after, noListPatch d1 ov = true →
      mergeDicts fuel d1 ov = .ok (r, after) → after = d1) ∧
    (∀ ks d1 ov r after,
      (∀ k v1 v2, (k, v1) ∈ d1 → dlookup ov k = some v2 → pairNoPatch v1 v2 = true) →
      mergeKeys fuel d1 ov ks = .ok (r, after) → after = d1) ∧
    (∀ l1 v2 res l1After, pairNoPatch (.list l1) v2 = true →
      mergeLists fuel l1 v2 = .ok (res, l1After) → l1After = l1) := by
  induction fuel using Nat.strong_induction_on with
  | _ fuel IH =>
    have listsP : ∀ l1 v2 res l1After, pairNoPatch (.list l1) v2 = true →
        mergeLists fuel l1 v2 = .ok (res, l1After) → l1After = l1 := by
      intro l1 v2 res l1After hp hm
      cases fuel with
      | zero => simp [mergeLists] at hm
      | succ g =>
        cases v2 with
        | list xs =>
          simp [mergeLists] at hm
          exact hm.2.symm
        | dict m =>
          by_cases hik : allIntKeys m = true
          · simp only [pairNoPatch, hik] at hp
            have hm0 : m = [] := by
              cases m with
              | nil => rfl
              | cons e rest => simp at hp
            subst hm0
            simp [mergeLists, mergePatch, allIntKeys] at hm
            exact hm.2.symm
          · simp [mergeLists, hik] at hm
            exact hm.2.symm
        | none =>
          simp [mergeLists] at hm
          exact hm.2.symm
        | int n =>
          simp [mergeLists] at hm
          exact hm.2.symm
        | str s =>
          simp [mergeLists] at hm
          exact hm.2.symm
        | bool b =>
          simp [mergeLists] at hm
          exact hm.2.symm
    have keysP : ∀ ks d1 ov r after,
        (∀ k v1 v2, (k, v1) ∈ d1 → dlookup ov k = some v2 → pairNoPatch v1 v2 = true) →
        mergeKeys fuel d1 ov ks = .ok (r, after) → after = d1 := by
      intro ks
      induction ks with
      | nil =>
        intro d1 ov r after _ hm
        simp [mergeKeys] at hm
        exact hm.2.symm
      | cons k rest ihks =>
        intro d1 ov r after hcond hm
        rw [mergeKeys] at hm
        cases h1 : dlookup d1 k with
        | none =>
          cases h2 : dlookup ov k with
          | none =>
            simp only [h1, h2] at hm
            exact ihks d1 ov r after hcond hm
          | some v2 =>
            simp only [h1, h2] at hm
            cases hrest : mergeKeys fuel d1 ov rest with
            | error e => simp [hrest] at hm
            | ok p =>
              obtain ⟨restPairs, d1Final⟩ := p
              simp [hrest] at hm
              rw [← hm.2]
              exact ihks d1 ov restPairs d1Final hcond hrest
        | some v1 =>
          cases h2 : dlookup ov k with
          | none =>
            simp only [h1, h2] at hm
            cases hrest : mergeKeys fuel d1 ov rest with
            | error e => simp [hrest] at hm
            | ok p =>
              obtain ⟨restPairs, d1Final⟩ := p
              simp [hrest] at hm
              rw [← hm.2]
              exact ihks d1 ov restPairs d1Final hcond hrest
          | some v2 =>
            simp only [h1, h2] at hm
            have hpair : pairNoPatch v1 v2 = true :=
              hcond k v1 v2 (dlookup_mem d1 k v1 h1) h2
            have hstep : ∀ {merged : Value},
                (mergeKeys fuel d1 ov rest >>=
                    (fun p => Except.ok ((k, merged) :: p.1, p.2)) =
                  .ok (r, after)) → after = d1 := by
              intro merged hbind
              cases hrest : mergeKeys fuel d1 ov rest with
              | error e => simp [hrest] at hbind
              | ok p =>
                obtain ⟨restPairs, d1Final⟩ := p
                simp [hrest] at hbind
                rw [← hbind.2]
                exact ihks d1 ov restPairs d1Final hcond hrest
            cases v1 with
            | dict a =>
              cases v2 with
              | dict b =>
                cases hd : mergeDicts fuel a b with
                | error e => simp [hd] at hm
                | ok p =>
                  obtain ⟨res, afterA⟩ := p
                  have hA : afterA = a := by
                    have hsub : noListPatch a b = true := by
                      simpa [pairNoPatch] using hpair
                    cases fuel with
                    | zero => simp [mergeDicts] at hd
                    | succ g =>
                      rw [mergeDicts] at hd
                      exact (IH g (Nat.lt_succ_self g)).2.1 _ a b res afterA
                        (fun k2 w1 w2 hw1 hw2 =>
                          noListPatch_spec a b hsub k2 w1 w2 hw1 hw2) hd
                  have hset : dset d1 k (Value.dict afterA) = d1 := by
                    rw [hA]
                    exact dset_eq_self d1 k (.dict a) h1
                  simp only [hd, okBind, hset] at hm
                  exact hstep hm
              | none => exact hstep hm
              | int n => exact hstep hm
              | str s => exact hstep hm
              | bool b => exact hstep hm
              | list xs => exact hstep hm
            | list l1 =>
              cases hl : mergeLists fuel l1 v2 with
              | error e => simp [hl] at hm
              | ok p =>
                obtain ⟨res, l1After⟩ := p
                have hA : l1After = l1 := listsP l1 v2 res l1After hpair hl
                have hset : dset d1 k (Value.list l1After) = d1 := by
                  rw [hA]
                  exact dset_eq_self d1 k (.list l1) h1
                simp only [hl, okBind, hset] at hm
                exact hstep hm
            | none => exact hstep hm
            | int n => exact hstep hm
            | str s => exact hstep hm
            | bool b => exact hstep hm
    refine ⟨?_, keysP, listsP⟩
    intro d1 ov r after hcond hm
    cases fuel with
    | zero => simp [mergeDicts] at hm
    | succ g =>
      rw [mergeDicts] at hm
      exact (IH g (Nat.lt_succ_self g)).2.1 _ d1 ov r after
        (fun k v1 v2 h1 h2 => noListPatch_spec d1 ov hcond k v1 v2 h1 h2) hm

/-- Witness for `c5_merge_amended`: a scalar-on-scalar override merges
without touching the base. -/
theorem c5_witness :
    noListPatch [(.str "a", .int 1)] [(.str "a", .int 5)] = true ∧
    ([(.str "a", .int 1)] : Entries) = [(.str "a", .int 1)] := by
  have hp : noListPatch [(.str "a", .int 1)] [(.str "a", .int 5)] = true := by
    simp [noListPatch, pairNoPatch, dlookup]
  refine ⟨hp, ?_⟩
  exact (c5_merge_amended 5).1 [(.str "a", .int 1)] [(.str "a", .int 5)]
    [(.str "a", .int 5)] [(.str "a", .int 1)] hp
    (by simp [mergeDicts, mergeKeys, dkeys, dcontains, dlookup])

/-- Claim C6 counterexample: the patch `(-3: 9)` on the two-element
sequence `[10, 20]` raises a fatal `IndexError` although no patch index is
greater than or equal to the sequence length — the claim admits only the
`idx >= len` out-of-range error.  And the patch `(-1: 9)` succeeds,
replacing the last element by Python negative indexing, a case the claim's
index model does not describe. -/
theorem c6_counterexample :
    mergeLists 3 [.int 10, .int 20] (.dict [(.int (-3), .int 9)]) =
      .error (.indexError (-3)) ∧
    (-3 : Int) < 2 ∧
    mergeLists 3 [.int 10, .int 20] (.dict [(.int (-1), .int 9)]) =
      .ok (.list [.int 10, .int 9], [.int 10, .int 9]) := by
  refine ⟨?_, by decide, ?_⟩
  · simp [mergeLists, mergePatch, allIntKeys]
  · simp [mergeLists, mergePatch, allIntKeys, lset]
theorem mergePatch_scalar (fuel : Nat) (patch : Entries) :
    ∀ (base : List Value), allIntKeys patch = true →
    noDictValues patch = true →
    mergePatch fuel base patch =
      (match firstBadErr base.length patch with
        | some e => .error e
        | Option.none => .ok (applyScalarPatch base patch)) := by
  induction patch with
  | nil =>
    intro base _ _
    simp [mergePatch, firstBadErr, applyScalarPatch]
  | cons e rest ih =>
    intro base hik hnd
    obtain ⟨k, v⟩ := e
    obtain ⟨n, hk⟩ : ∃ n, k = .int n := by
      cases k with
      | int n => exact ⟨n, rfl⟩
      | str s => simp [allIntKeys] at hik
    subst hk
    have hikr : allIntKeys rest = true := by
      simpa [allIntKeys] using hik
    have hndr : noDictValues rest = true := by
      have h := hnd
      simp only [noDictValues, List.all_cons, Bool.and_eq_true] at h
      exact h.2
    have hvnd : ∀ d, v ≠ Value.dict d := by
      intro d hd
      subst hd
      simp [noDictValues] at hnd
    rw [mergePatch]
    by_cases h1 : ((n : Int) ≥ (base.length : Int))
    · simp [h1, firstBadErr, keyInt]
    · by_cases h2 : ((if (n : Int) < 0 then (base.length : Int) + n else (n : Int)) < 0)
      · have hbad : firstBadErr base.length ((Key.int n, v) :: rest) =
            some (.indexError n) := by
          simp only [firstBadErr, keyInt]
          rw [if_neg h1]
          rw [if_pos ?hneg]
          case hneg =>
            by_cases hn0 : (n : Int) < 0
            · rw [if_pos hn0] at h2
              omega
            · rw [if_neg hn0] at h2
              omega
        simp [h1, h2, hbad]
      · have hfb : firstBadErr base.length ((Key.int n, v) :: rest) =
            firstBadErr base.length rest := by
          simp only [firstBadErr, keyInt]
          rw [if_neg h1, if_neg ?hge]
          case hge =>
            by_cases hn0 : (n : Int) < 0
            · rw [if_pos hn0] at h2
              omega
            · rw [if_neg hn0] at h2
              omega
        have hpos : (if (n : Int) < 0 then (base.length : Int) + n else (n : Int)).toNat =
            patchPos base.length (keyInt (Key.int n)) := by
          by_cases hn0 : (n : Int) < 0 <;> simp [patchPos, keyInt, hn0]
        rw [if_neg h1, if_neg h2, hfb]
        simp only [pureBind, okBind, hpos]
        rw [ih _ hikr hndr, lset_length,
          show applyScalarPatch base ((Key.int n, v) :: rest) =
            applyScalarPatch (lset base (patchPos base.length (keyInt (Key.int n))) v) rest from rfl]
        cases v with
        | dict d => exact absurd rfl (hvnd d)
        | none =>
          cases base.getD (patchPos base.length (keyInt (Key.int n))) Value.none <;> rfl
        | int m =>
          cases base.getD (patchPos base.length (keyInt (Key.int n))) Value.none <;> rfl
        | str s =>
          cases base.getD (patchPos base.length (keyInt (Key.int n))) Value.none <;> rfl
        | bool b =>
          cases base.getD (patchPos base.length (keyInt (Key.int n))) Value.none <;> rfl
        | list xs =>
          cases base.getD (patchPos base.length (keyInt (Key.int n))) Value.none <;> rfl

/-- Claim C6 [amended]: a sparse patch follows Python indexing.  For a
scalar-valued all-int-keyed patch, merging equals claim-level positional
replacement (`applyScalarPatch`, negative indices addressing from the end)
when every index lies in `[-len, len)`, and otherwise raises, per the first
offending entry, the out-of-range `ValueError` for an index `>= len` or the
`IndexError` for an index `< -len`.  For an in-range index whose patch
value is a mapping: if the addressed element is a mapping the two are
recursively dict-merged in place, and if it is a sequence the sparse
list-patch recurses, the patched element replacing the original. -/
theorem c6_merge_lists_amended (fuel : Nat) (base : List Value) (patch : Entries)
    (hik : allIntKeys patch = true) :
    (noDictValues patch = true →
      mergeLists (fuel + 1) base (.dict patch) =
        (match firstBadErr base.length patch with
          | some e => .error e
          | Option.none =>
            .ok (.list (applyScalarPatch base patch), applyScalarPatch base patch))) ∧
    (∀ (i : Nat) (d1 d2 : Entries), i < base.length →
      base.getD i .none = .dict d1 →
      mergeLists (fuel + 1) base (.dict [(.int i, .dict d2)]) =
        (match mergeDicts fuel d1 d2 with
          | .ok p => .ok (.list (lset base i (.dict p.1)), lset base i (.dict p.1))
          | .error e => .error e)) ∧
    (∀ (i : Nat) (l1 : List Value) (d2 : Entries), i < base.length →
      base.getD i .none = .list l1 →
      mergeLists (fuel + 1) base (.dict [(.int i, .dict d2)]) =
        (match mergeLists fuel l1 (.dict d2) with
          | .ok p => .ok (.list (lset base i p.1), lset base i p.1)
          | .error e => .error e)) := by
  refine ⟨?_, ?_, ?_⟩
  · intro hnd
    rw [mergeLists]
    simp only [hik, if_pos]
    rw [mergePatch_scalar fuel patch base hik hnd]
    cases firstBadErr base.length patch <;> simp
  · intro i d1 d2 hlen helem
    rw [mergeLists]
    have hik1 : allIntKeys [(Key.int (i : Int), Value.dict d2)] = true := by
      simp [allIntKeys]
    simp only [hik1, if_pos]
    rw [mergePatch]
    rw [if_neg (by omega : ¬ ((i : Int) ≥ (base.length : Int)))]
    rw [if_neg (by omega : ¬ ((if (i : Int) < 0 then (base.length : Int) + i else (i : Int)) < 0))]
    have hposi : (if (i : Int) < 0 then (base.length : Int) + i else (i : Int)).toNat = i := by
      omega
    simp only [hposi, helem]
    cases hd : mergeDicts fuel d1 d2 with
    | error e => simp [hd]
    | ok p => simp [hd, mergePatch]
  · intro i l1 d2 hlen helem
    rw [mergeLists]
    have hik1 : allIntKeys [(Key.int (i : Int), Value.dict d2)] = true := by
      simp [allIntKeys]
    simp only [hik1, if_pos]
    rw [mergePatch]
    rw [if_neg (by omega : ¬ ((i : Int) ≥ (base.length : Int)))]
    rw [if_neg (by omega : ¬ ((if (i : Int) < 0 then (base.length : Int) + i else (i : Int)) < 0))]
    have hposi : (if (i : Int) < 0 then (base.length : Int) + i else (i : Int)).toNat = i := by
      omega
    simp only [hposi, helem]
    cases hl : mergeLists fuel l1 (.dict d2) with
    | error e => simp [hl]
    | ok p => simp [hl, mergePatch]

/-- Witness for `c6_merge_lists_amended`: the in-range scalar patch `(0: 9)`
replaces the first element. -/
theorem c6_witness :
    mergeLists 1 [.int 10, .int 20] (.dict [(.int 0, .int 9)]) =
      .ok (.list [.int 9, .int 20], [.int 9, .int 20]) := by
  have h := (c6_merge_lists_amended 0 [.int 10, .int 20]
    [(.int 0, .int 9)] (by decide)).1 (by decide)
  simpa [firstBadErr, keyInt, applyScalarPatch, patchPos, lset] using h

/-- Claim C3 counterexample: `listBlock` supplies every field lacking a
default, recursively (`suppliesRequired`), yet default population returns
it unchanged — the `inspect.isclass` guard of configurable.py line 132
skips the `ConfigList`-typed sub-component field, so the nested `S` block
never receives the default for its field `a` and the tree is not
defaults-complete before construction. -/
theorem c3_counterexample :
    suppliesRequired listWorld 9 "T" listBlock = true ∧
    populateRecurse listWorld 9 "T" listBlock (clsDefaults listWorld "T") =
      .ok listBlock ∧
    fieldsComplete listWorld 9 "T" listBlock = false := by
  refine ⟨?_, ?_, ?_⟩
  · simp [listBlock, suppliesRequired, suppliesRequiredCfgs, subSupplies,
      subSuppliesList, clsParams, clsDefaults, clsConfigurables, findClass,
      listWorld, getClass, candidateNames, allSubclasses, allSubclassesAux,
      matchingKeys, unwrapCType, dkeys, dcontains, dlookup, slookup]
  · simp [listBlock, populateRecurse, populatePhase1, populatePhase2,
      cfgTypeOf, clsParams, clsDefaults, clsConfigurables, findClass,
      listWorld, dkeys, dcontains, dlookup, slookup, dset]
  · simp [listBlock, fieldsComplete, fieldsCompleteCfgs, subComplete,
      subCompleteList, clsParams, clsDefaults, clsConfigurables, findClass,
      listWorld, getClass, candidateNames, allSubclasses, allSubclassesAux,
      matchingKeys, unwrapCType, dkeys, dcontains, dlookup, slookup]

/-- Claim C9 counterexample: constructing `C` from the caller's dict
`(C: (b: 2))` stores the caller's dict itself (not a copy) and populates
the default `a: 1` into it in place, so after construction the caller's
dict has changed; and writing through the shallow copy the `cfg` accessor
returns mutates the instance's stored configuration at nested level. -/
theorem c9_counterexample :
    configurableInit cWorld 9 "C" cCaller =
      .ok { inst := .inst "C" cStored [("a", .raw (.int 1)), ("b", .raw (.int 2))],
            storedCfg := cStored, aliased := true, callerAfter := cStored } ∧
    cStored ≠ cCaller ∧
    (cfgCopyWriteNested cStored (.str "C") (.str "x") (.int 7)).2 ≠ cStored := by
  refine ⟨?_, ?_, ?_⟩
  · simp [configurableInit, cCaller, cWorld, cStored, initParams,
      populateRecurse, populatePhase1, populatePhase2, cfgTypeOf, clsParams,
      clsDefaults, clsConfigurables, findClass, verifyConfig, missingOf,
      extraneousOf, pyFalsy, dkeys, dcontains, dlookup, slookup, dset]
  · simp [cStored, cCaller]
  · simp [cfgCopyWriteNested, cStored, dlookup, dset]

theorem initParams_no_cfg (w : World) (g : Nat) (cn : String)
    (hnc : clsConfigurables w cn = []) :
    ∀ (ps : List String) (im : Entries) (pr : List (String × Obj) × Entries),
      initParams w g cn im ps = .ok pr → pr.2 = im := by
  intro ps
  induction ps with
  | nil =>
    intro im pr h
    simp [initParams] at h
    simp [← h]
  | cons p rest ih =>
    intro im pr h
    rw [initParams] at h
    cases hv : slookup im p with
    | none => simp [hv] at h
    | some v =>
      have hct : cfgTypeOf w cn p = Option.none := by
        simp [cfgTypeOf, hnc]
      simp only [hv, hct] at h
      cases hrest : initParams w g cn im rest with
      | error e => simp [hrest] at h
      | ok pr2 =>
        simp [hrest] at h
        rw [← h]
        exact ih im pr2 hrest

/-- Claim C9 [amended]: when the inner block is truthy, the constructed
instance stores the caller's dict object itself — so the caller's dict
after construction IS the instance's stored configuration, which is the
caller's original entries with the class block replaced by the
default-populated block (shown for variants without sub-components, whose
construction loop leaves the block alone); when the inner block is falsy
the instance stores a fresh single-entry dict and the caller's dict is
untouched.  The `cfg` accessor's shallow copy isolates top-level rebinding
from the stored configuration but shares nested blocks: writing through the
copy at nested level rewrites the stored configuration too. -/
theorem c9_init_amended (w : World) (fuel : Nat) (cn : String) (cfg : Entries)
    (r : InitResult) (h : configurableInit w fuel cn cfg = .ok r) :
    (∃ inner, slookup cfg cn = some inner ∧
      (pyFalsy inner = false →
        r.aliased = true ∧ r.callerAfter = r.storedCfg ∧
        ∃ im2, r.storedCfg = dset cfg (.str cn) (.dict im2)) ∧
      (pyFalsy inner = true →
        r.aliased = false ∧ r.callerAfter = cfg ∧
        ∃ im2, r.storedCfg = [((Key.str cn), Value.dict im2)]) ∧
      (pyFalsy inner = false → clsConfigurables w cn = [] →
        ∃ g inner1, fuel = g + 1 ∧
          populateRecurse w g cn inner (clsDefaults w cn) = .ok inner1 ∧
          r.storedCfg = dset cfg (.str cn) inner1 ∧
          r.callerAfter = r.storedCfg)) ∧
    (∀ k v, (cfgCopyWriteTop r.storedCfg k v).2 = r.storedCfg) ∧
    (∀ k1 k2 v m, dlookup r.storedCfg k1 = some (.dict m) →
      (cfgCopyWriteNested r.storedCfg k1 k2 v).2 =
        dset r.storedCfg k1 (.dict (dset m k2 v))) := by
  refine ⟨?_, fun k v => rfl, fun k1 k2 v m hm => by simp [cfgCopyWriteNested, hm]⟩
  cases fuel with
  | zero => simp [configurableInit] at h
  | succ g =>
    rw [configurableInit] at h
    cases hin : slookup cfg cn with
    | none => simp [hin] at h
    | some inner =>
      refine ⟨inner, rfl, ?_⟩
      simp only [hin, okBind, pureBind] at h
      by_cases hf : pyFalsy inner = true
      · rw [if_pos hf, if_pos hf] at h
        cases hpop : populateRecurse w g cn (Value.dict []) (clsDefaults w cn) with
        | error e => simp [hpop] at h
        | ok inner1 =>
          simp only [hpop, okBind] at h
          cases inner1 with
          | dict im =>
            simp only [okBind] at h
            cases hver : verifyConfig cn im (clsParams w cn) with
            | error e => simp [hver] at h
            | ok u =>
              simp only [hver] at h
              cases hip : initParams w g cn im (clsParams w cn) with
              | error e => simp [hip] at h
              | ok pr =>
                obtain ⟨instances, imFinal⟩ := pr
                simp only [hip, okBind] at h
                injection h with hh
                subst hh
                refine ⟨fun hff => by simp [hf] at hff,
                  fun _ => ?_,
                  fun hff _ => by simp [hf] at hff⟩
                refine ⟨by simp [hf], by simp [hf], imFinal, ?_⟩
                simp [dset]
          | none => simp at h
          | int n => simp at h
          | str s => simp at h
          | bool b => simp at h
          | list xs => simp at h
      · have hf2 : pyFalsy inner = false := by
          simpa using hf
        rw [if_neg hf, if_neg hf] at h
        cases hpop : populateRecurse w g cn inner (clsDefaults w cn) with
        | error e => simp [hpop] at h
        | ok inner1 =>
          simp only [hpop, okBind] at h
          cases inner1 with
          | dict im =>
            simp only [okBind] at h
            cases hver : verifyConfig cn im (clsParams w cn) with
            | error e => simp [hver] at h
            | ok u =>
              simp only [hver] at h
              cases hip : initParams w g cn im (clsParams w cn) with
              | error e => simp [hip] at h
              | ok pr =>
                obtain ⟨instances, imFinal⟩ := pr
                simp only [hip, okBind] at h
                injection h with hh
                subst hh
                refine ⟨fun _ => ?_,
                  fun ht => by simp [hf2] at ht,
                  fun _ hnc => ?_⟩
                · exact ⟨by simp [hf2], by simp [hf2], imFinal, by simp [hf2]⟩
                · refine ⟨g, .dict imFinal, rfl, ?_, ?_, ?_⟩
                  · have heq : imFinal = im := initParams_no_cfg w g cn hnc _ im _ hip
                    rw [heq]
                    exact hpop
                  · simp [hf2]
                  · simp [hf2]
          | none => simp at h
          | int n => simp at h
          | str s => simp at h
          | bool b => simp at h
          | list xs => simp at h


/-- Witness for `c9_init_amended`: the `C` construction of the
counterexample world leaves the caller's dict equal to the stored config,
i.e. the original entries with the class block replaced. -/
theorem c9_witness : ∃ im2, cStored = dset cCaller (.str "C") (.dict im2) := by
  have hinit : configurableInit cWorld 9 "C" cCaller =
      .ok { inst := .inst "C" cStored [("a", .raw (.int 1)), ("b", .raw (.int 2))],
            storedCfg := cStored, aliased := true, callerAfter := cStored } := by
    simp [configurableInit, cCaller, cWorld, cStored, initParams,
      populateRecurse, populatePhase1, populatePhase2, cfgTypeOf, clsParams,
      clsDefaults, clsConfigurables, findClass, verifyConfig, missingOf,
      extraneousOf, pyFalsy, dkeys, dcontains, dlookup, slookup, dset]
  obtain ⟨inner, hin, htruthy, -, -⟩ := (c9_init_amended cWorld 9 "C" cCaller _ hinit).1
  have hc : slookup cCaller "C" = some (.dict [(.str "b", .int 2)]) := rfl
  rw [hc] at hin
  injection hin with hin
  subst hin
  exact (htruthy rfl).2.2

/-- Claim C7 counterexample: with the constant `v` defined, macro
evaluation succeeds on the tree `(a: [["${v}"]])` yet returns it
untouched: the list-element loop of config.py lines 219-224 visits only
mappings and strings, so a string leaf inside a nested sequence keeps its
unresolved marker. -/
theorem c7_counterexample :
    evalVars 9 [(.str "v", .int 1)] []
        [(.str "a", .list [.list [.str (macroStr "v")]])] =
      .ok [(.str "a", .list [.list [.str (macroStr "v")]])] ∧
    entriesHasMarker [(.str "a", .list [.list [.str (macroStr "v")]])] = true := by
  constructor
  · simp [evalVars, evalVarsKeys, evalListElems, dkeys, dlookup, dset]
  · simp [entriesHasMarker, valueHasMarker, listHasMarker, hasMacro]

/-- Claim C8 [confirmed]: the `inherit` macro replaces a string value with
the nearest enclosing ancestor's value for the same key: the spec's own
example `(A: (x: 1, B: (x: "${inherit}")))` evaluates the inner `x` to `1`;
a root-level `(x: "${inherit}")` raises the fatal lookup `KeyError`; and in
general `_inherit_recurse` returns the value of the first ancestor mapping
(innermost first) defining the key, failing exactly when none does. -/
theorem c8_inherit :
    (evalVars 9 [] []
        [(.str "A", .dict [(.str "x", .int 1),
          (.str "B", .dict [(.str "x", .str (macroStr "inherit"))])])] =
      .ok [(.str "A", .dict [(.str "x", .int 1),
          (.str "B", .dict [(.str "x", .int 1)])])]) ∧
    (evalVars 9 [] [] [(.str "x", .str (macroStr "inherit"))] =
      .error (.noInherit (.str "x"))) ∧
    (∀ (ancestors : List Entries) (term : Key),
      inheritRecurse ancestors term =
        match ancestors.find? (fun a => dcontains a term) with
        | some a => .ok ((dlookup a term).getD .none)
        | Option.none => .error (.noInherit term)) := by
  refine ⟨?_, ?_, ?_⟩
  · simp [evalVars, evalVarsKeys, evalMacro, inheritRecurse,
      dkeys, dlookup, dset, dcontains]
  · simp [evalVars, evalVarsKeys, evalMacro, dkeys, dlookup, dset, dcontains]
  · intro ancestors term
    induction ancestors with
    | nil => simp [inheritRecurse]
    | cons a rest ih =>
      by_cases h : dcontains a term = true
      · have hs : ∃ v, dlookup a term = some v := by
          simpa [dcontains, Option.isSome_iff_exists] using h
        obtain ⟨v, hv⟩ := hs
        simp [inheritRecurse, hv, List.find?, h]
      · have hn : dlookup a term = Option.none := by
          cases hl : dlookup a term with
          | none => rfl
          | some v => simp [dcontains, hl] at h
        simp [inheritRecurse, hn, List.find?, h, ih]

theorem mem_dcontains (m : Entries) (k : Key) (v : Value)
    (h : (k, v) ∈ m) : dcontains m k = true := by
  induction m with
  | nil => simp at h
  | cons e rest ih =>
    rcases List.mem_cons.mp h with heq | hmem
    · rw [← heq]
      simp [dcontains, dlookup]
    · by_cases he : e.1 = k
      · simp [dcontains, dlookup, he]
      · simp only [dcontains, dlookup, if_neg he]
        exact ih hmem

theorem mem_dset_nodup (m : Entries) (k : Key) (v : Value) (k2 : Key) (v2 : Value)
    (hnd : keysNodupB m = true) (h : (k2, v2) ∈ dset m k v) :
    (k2 = k ∧ v2 = v) ∨ ((k2, v2) ∈ m ∧ k2 ≠ k) := by
  induction m with
  | nil =>
    simp [dset] at h
    exact Or.inl ⟨h.1, h.2⟩
  | cons e rest ih =>
    obtain ⟨k1, w⟩ := e
    simp only [keysNodupB, Bool.and_eq_true] at hnd
    by_cases he : k1 = k
    · subst he
      simp only [dset, if_pos rfl] at h
      rcases List.mem_cons.mp h with heq | hmem
      · injection heq with h1 h2
        exact Or.inl ⟨h1, h2⟩
      · have hk2 : k2 ≠ k1 := by
          intro hh
          subst hh
          have := mem_dcontains rest k2 v2 hmem
          simp [this] at hnd
        exact Or.inr ⟨List.mem_cons_of_mem _ hmem, hk2⟩
    · simp only [dset, if_neg he] at h
      rcases List.mem_cons.mp h with heq | hmem
      · injection heq with h1 h2
        subst h1
        subst h2
        exact Or.inr ⟨List.mem_cons_self _ _, he⟩
      · rcases ih hnd.2 hmem with hl | hr
        · exact Or.inl hl
        · exact Or.inr ⟨List.mem_cons_of_mem _ hr.1, hr.2⟩

theorem keysNodupB_dset (m : Entries) (k : Key) (v : Value) :
    keysNodupB (dset m k v) = keysNodupB m := by
  induction m with
  | nil => simp [dset, keysNodupB, dcontains, dlookup]
  | cons e rest ih =>
    obtain ⟨k1, w⟩ := e
    by_cases he : k1 = k
    · simp [dset, he, keysNodupB]
    · simp only [dset, if_neg he, keysNodupB, ih]
      have : dcontains (dset rest k v) k1 = dcontains rest k1 := by
        simp [dcontains, dlookup_dset_ne rest k k1 v he]
      rw [this]

theorem keysNodupB_nodup (m : Entries) (h : keysNodupB m = true) :
    (dkeys m).Nodup := by
  induction m with
  | nil => simp [dkeys]
  | cons e rest ih =>
    simp only [keysNodupB, Bool.and_eq_true] at h
    simp only [dkeys, List.map_cons, List.nodup_cons]
    refine ⟨?_, ih h.2⟩
    intro hmem
    obtain ⟨e2, he2, hk⟩ := List.mem_map.mp hmem
    have := mem_dcontains rest e.1 e2.2 (by
      have : e2 = (e.1, e2.2) := by
        ext
        · exact hk
        · rfl
      rw [← this]
      exact he2)
    simp [this] at h

theorem constResolvable_mem (vars : Entries) (m : Entries) (k : Key) (v : Value)
    (h : constResolvable vars m = true) (hm : (k, v) ∈ m) :
    constResolvableVal vars v = true := by
  induction m with
  | nil => simp at hm
  | cons e rest ih =>
    rw [constResolvable] at h
    simp only [Bool.and_eq_true] at h
    rcases List.mem_cons.mp hm with heq | hmem
    · rw [← heq] at h
      exact h.1
    · exact ih h.2 hmem

theorem treeNodup_mem (m : Entries) (k : Key) (v : Value)
    (h : treeNodup m = true) (hm : (k, v) ∈ m) : valNodup v = true := by
  induction m with
  | nil => simp at hm
  | cons e rest ih =>
    rw [treeNodup] at h
    simp only [Bool.and_eq_true] at h
    rcases List.mem_cons.mp hm with heq | hmem
    · rw [← heq] at h
      exact h.1
    · exact ih h.2 hmem

theorem varsCleanShallow_lookup (vars : Entries) (k : Key) (v : Value)
    (h : varsCleanShallow vars = true) (hl : dlookup vars k = some v) :
    cleanValShallow v = true := by
  have hm := dlookup_mem vars k v hl
  simp only [varsCleanShallow, List.all_eq_true] at h
  exact h (k, v) hm

theorem cleanShallow_of_forall (m : Entries)
    (h : ∀ k v, (k, v) ∈ m → k ≠ .str "PARENT" → cleanValShallow v = true) :
    cleanShallow (m.filter fun e => e.1 ≠ .str "PARENT") = true := by
  induction m with
  | nil => simp [cleanShallow]
  | cons e rest ih =>
    rw [List.filter_cons]
    by_cases he : e.1 = .str "PARENT"
    · rw [if_neg (by simp [he])]
      exact ih fun k v hm hk => h k v (List.mem_cons_of_mem _ hm) hk
    · rw [if_pos (by simp [he])]
      have h1 : cleanValShallow e.2 = true := h e.1 e.2 (by simp) he
      simp only [cleanShallow, Bool.and_eq_true]
      exact ⟨h1, ih fun k v hm hk => h k v (List.mem_cons_of_mem _ hm) hk⟩

theorem evalMacro_const_clean (fuel : Nat) (vars : Entries)
    (ancestors : List Entries) (term : Key) (s : String) (r : Value)
    (hres : (match findMacroIn s.data with
      | some n => dcontains vars (.str n)
      | Option.none => true) = true)
    (hvars : varsCleanShallow vars = true)
    (h : evalMacro fuel vars ancestors term (.str s) = .ok r) :
    cleanValShallow r = true := by
  cases fuel with
  | zero => simp [evalMacro] at h
  | succ g =>
    simp only [evalMacro] at h
    cases hfm : findMacroIn s.data with
    | none =>
      simp only [hfm] at h
      injection h with h
      rw [← h]
      simp [cleanValShallow, hasMacro, hfm]
    | some n =>
      simp only [hfm] at h
      rw [hfm] at hres
      rw [if_pos hres] at h
      cases hl : dlookup vars (.str n) with
      | none => simp [dcontains, hl] at hres
      | some v =>
        simp only [hl, Option.getD_some] at h
        injection h with h
        rw [← h]
        exact varsCleanShallow_lookup vars (.str n) v hvars hl



theorem cleanListShallow_cons (x : Value) (xs : List Value) :
    cleanListShallow (x :: xs) =
      ((match x with
        | Value.str s => ¬ hasMacro s
        | Value.dict m => cleanShallow m
        | _ => true) && cleanListShallow xs) := by
  cases x <;> simp [cleanListShallow]

theorem constResolvableList_cons (vars : Entries) (x : Value) (xs : List Value) :
    constResolvableList vars (x :: xs) =
      ((match x with
        | Value.str s =>
          (match findMacroIn s.data with
            | some n => dcontains vars (.str n)
            | Option.none => true)
        | Value.dict m => constResolvable vars m
        | _ => true) && constResolvableList vars xs) := by
  cases x <;> simp [constResolvableList]

theorem cleanValShallow_elem (x : Value) :
    cleanValShallow x = true →
    (match x with
      | Value.str s => ¬ hasMacro s
      | Value.dict m => cleanShallow m
      | _ => true) = true := by
  intro h
  cases x with
  | str s => simpa [cleanValShallow] using h
  | dict m => simpa [cleanValShallow] using h
  | none => rfl
  | int n => rfl
  | bool b => rfl
  | list xs => rfl

theorem evalVars_clean (fuel : Nat) :
    (∀ vars anc parent res, varsCleanShallow vars = true →
      constResolvable vars parent = true →
      keysNodupB parent = true → treeNodup parent = true →
      evalVars fuel vars anc parent = .ok res → cleanShallow res = true) ∧
    (∀ vars anc cur ks res, varsCleanShallow vars = true →
      keysNodupB cur = true →
      ks.Nodup →
      (∀ k v, (k, v) ∈ cur → k ∈ ks →
        constResolvableVal vars v = true ∧ valNodup v = true) →
      (∀ k v, (k, v) ∈ cur → k ∉ ks → k ≠ .str "PARENT" →
        cleanValShallow v = true) →
      evalVarsKeys fuel vars anc cur ks = .ok res →
      ∀ k v, (k, v) ∈ res → k ≠ .str "PARENT" → cleanValShallow v = true) ∧
    (∀ vars childAnc anc k xs res, varsCleanShallow vars = true →
      constResolvableList vars xs = true → listNodup xs = true →
      evalListElems fuel vars childAnc anc k xs = .ok res →
      cleanListShallow res = true) := by
  induction fuel using Nat.strong_induction_on with
  | _ fuel IH =>
    have aP : ∀ vars anc parent res, varsCleanShallow vars = true →
        constResolvable vars parent = true →
        keysNodupB parent = true → treeNodup parent = true →
        evalVars fuel vars anc parent = .ok res → cleanShallow res = true := by
      intro vars anc parent res hv hcr hkn htn h
      cases fuel with
      | zero => simp [evalVars] at h
      | succ g =>
        simp only [evalVars] at h
        cases hk : evalVarsKeys g vars anc parent (dkeys parent) with
        | error e => simp [hk] at h
        | ok cur2 =>
          simp only [hk, okBind] at h
          injection h with h
          rw [← h]
          apply cleanShallow_of_forall
          exact (IH g (Nat.lt_succ_self g)).2.1 vars anc parent (dkeys parent) cur2 hv hkn
            (keysNodupB_nodup parent hkn)
            (fun k v hm _ => ⟨constResolvable_mem vars parent k v hcr hm,
              treeNodup_mem parent k v htn hm⟩)
            (fun k v hm hnk _ => absurd (List.mem_map_of_mem Prod.fst hm) hnk)
            hk
    have cP : ∀ vars childAnc anc k xs res, varsCleanShallow vars = true →
        constResolvableList vars xs = true → listNodup xs = true →
        evalListElems fuel vars childAnc anc k xs = .ok res →
        cleanListShallow res = true := by
      intro vars childAnc anc k xs
      induction xs with
      | nil =>
        intro res _ _ _ h
        simp only [evalListElems] at h
        injection h with h
        rw [← h]
        simp [cleanListShallow]
      | cons x rest ih =>
        intro res hv hcl hln h
        rw [constResolvableList_cons] at hcl
        rw [listNodup] at hln
        simp only [Bool.and_eq_true] at hcl hln
        have hclean : ∀ x2 rest2, res = x2 :: rest2 →
            cleanListShallow rest2 = true →
            (match x2 with
              | Value.str s => ¬ hasMacro s
              | Value.dict m => cleanShallow m
              | _ => true) = true →
            cleanListShallow res = true := by
          intro x2 rest2 hres hr2 hx2
          rw [hres, cleanListShallow_cons, hx2, hr2]
          rfl
        cases x with
        | dict d =>
          simp only [evalListElems] at h
          cases hev : evalVars fuel vars childAnc d with
          | error e => simp [hev] at h
          | ok d2 =>
            simp only [hev, okBind] at h
            cases hrest : evalListElems fuel vars childAnc anc k rest with
            | error e => simp [hrest] at h
            | ok rest2 =>
              simp only [hrest, okBind] at h
              injection h with h
              have hd2 : cleanShallow d2 = true := by
                have hsub : constResolvable vars d = true := hcl.1
                have hnd : keysNodupB d = true ∧ treeNodup d = true := by
                  have := hln.1
                  simp only [valNodup, Bool.and_eq_true] at this
                  exact this
                exact aP vars childAnc d d2 hv hsub hnd.1 hnd.2 hev
              exact hclean (.dict d2) rest2 h.symm
                (ih rest2 hv hcl.2 hln.2 hrest) hd2
        | str s =>
          simp only [evalListElems] at h
          cases hev : evalMacro fuel vars anc k (.str s) with
          | error e => simp [hev] at h
          | ok x2 =>
            simp only [hev, okBind] at h
            cases hrest : evalListElems fuel vars childAnc anc k rest with
            | error e => simp [hrest] at h
            | ok rest2 =>
              simp only [hrest, okBind] at h
              injection h with h
              have hx2 : cleanValShallow x2 = true :=
                evalMacro_const_clean fuel vars anc k s x2 hcl.1 hv hev
              exact hclean x2 rest2 h.symm (ih rest2 hv hcl.2 hln.2 hrest)
                (cleanValShallow_elem x2 hx2)
        | none =>
          simp only [evalListElems] at h
          cases hrest : evalListElems fuel vars childAnc anc k rest with
          | error e => simp [hrest] at h
          | ok rest2 =>
            simp only [hrest, okBind, pureBind] at h
            injection h with h
            exact hclean _ rest2 h.symm (ih rest2 hv hcl.2 hln.2 hrest) rfl
        | int n =>
          simp only [evalListElems] at h
          cases hrest : evalListElems fuel vars childAnc anc k rest with
          | error e => simp [hrest] at h
          | ok rest2 =>
            simp only [hrest, okBind, pureBind] at h
            injection h with h
            exact hclean _ rest2 h.symm (ih rest2 hv hcl.2 hln.2 hrest) rfl
        | bool b =>
          simp only [evalListElems] at h
          cases hrest : evalListElems fuel vars childAnc anc k rest with
          | error e => simp [hrest] at h
          | ok rest2 =>
            simp only [hrest, okBind, pureBind] at h
            injection h with h
            exact hclean _ rest2 h.symm (ih rest2 hv hcl.2 hln.2 hrest) rfl
        | list ys =>
          simp only [evalListElems] at h
          cases hrest : evalListElems fuel vars childAnc anc k rest with
          | error e => simp [hrest] at h
          | ok rest2 =>
            simp only [hrest, okBind, pureBind] at h
            injection h with h
            exact hclean _ rest2 h.symm (ih rest2 hv hcl.2 hln.2 hrest) rfl
    refine ⟨aP, ?_, cP⟩
    intro vars anc cur ks
    induction ks generalizing cur with
    | nil =>
      intro res hv hkn hnd h1 h2 h
      simp only [evalVarsKeys] at h
      injection h with h
      intro k v hm hkp
      exact h2 k v (h ▸ hm) (by simp) hkp
    | cons k rest ihks =>
      intro res hv hkn hnd h1 h2 h
      simp only [evalVarsKeys] at h
      by_cases hkp : k = Key.str "PARENT"
      · rw [if_pos hkp] at h
        refine ihks cur res hv hkn (List.Nodup.of_cons hnd) ?_ ?_ h
        · intro k2 v2 hm hk2
          exact h1 k2 v2 hm (List.mem_cons_of_mem _ hk2)
        · intro k2 v2 hm hk2 hkp2
          by_cases hkk : k2 = k
          · exact absurd (hkk.trans hkp) hkp2
          · exact h2 k2 v2 hm (by simp [hkk, hk2]) hkp2
      · rw [if_neg hkp] at h
        cases hl : dlookup cur k with
        | none =>
          simp only [hl] at h
          refine ihks cur res hv hkn (List.Nodup.of_cons hnd) ?_ ?_ h
          · intro k2 v2 hm hk2
            exact h1 k2 v2 hm (List.mem_cons_of_mem _ hk2)
          · intro k2 v2 hm hk2 hkp2
            by_cases hkk : k2 = k
            · subst hkk
              exact absurd (mem_dcontains cur k2 v2 hm) (by simp [dcontains, hl])
            · exact h2 k2 v2 hm (by simp [hkk, hk2]) hkp2
        | some childVar =>
          simp only [hl] at h
          have hkmem : (k, childVar) ∈ cur := dlookup_mem cur k childVar hl
          obtain ⟨hcr, hvn⟩ := h1 k childVar hkmem (List.mem_cons_self _ _)
          have hknotin : k ∉ rest := (List.nodup_cons.mp hnd).1
          have hcont : ∀ newVal, cleanValShallow newVal = true →
              evalVarsKeys fuel vars anc (dset cur k newVal) rest = .ok res →
              ∀ k2 v2, (k2, v2) ∈ res → k2 ≠ .str "PARENT" →
                cleanValShallow v2 = true := by
            intro newVal hclean hrec
            refine ihks (dset cur k newVal) res hv ?_ (List.Nodup.of_cons hnd) ?_ ?_ hrec
            · rw [keysNodupB_dset]
              exact hkn
            · intro k2 v2 hm hk2
              rcases mem_dset_nodup cur k newVal k2 v2 hkn hm with ⟨hkk, _⟩ | ⟨hm2, hkk⟩
              · exact absurd (hkk ▸ hk2) hknotin
              · exact h1 k2 v2 hm2 (List.mem_cons_of_mem _ hk2)
            · intro k2 v2 hm hk2 hkp2
              rcases mem_dset_nodup cur k newVal k2 v2 hkn hm with ⟨hkk, hvv⟩ | ⟨hm2, hkk⟩
              · rw [hvv]
                exact hclean
              · exact h2 k2 v2 hm2 (by simp [hkk, hk2]) hkp2
          cases childVar with
          | dict d =>
            cases hev : evalVars fuel vars (cur :: anc) d with
            | error e => simp [hev] at h
            | ok d2 =>
              simp only [hev, okBind] at h
              refine hcont (.dict d2) ?_ h
              simp only [constResolvableVal] at hcr
              simp only [valNodup, Bool.and_eq_true] at hvn
              have := aP vars (cur :: anc) d d2 hv hcr hvn.1 hvn.2 hev
              simpa [cleanValShallow] using this
          | list xs =>
            cases hev : evalListElems fuel vars (cur :: anc) anc k xs with
            | error e => simp [hev] at h
            | ok xs2 =>
              simp only [hev, okBind] at h
              refine hcont (.list xs2) ?_ h
              simp only [constResolvableVal] at hcr
              simp only [valNodup] at hvn
              have := cP vars (cur :: anc) anc k xs xs2 hv hcr hvn hev
              simpa [cleanValShallow] using this
          | str s =>
            cases hev : evalMacro fuel vars anc k (.str s) with
            | error e => simp [hev] at h
            | ok r2 =>
              simp only [hev, okBind] at h
              refine hcont r2 ?_ h
              apply evalMacro_const_clean fuel vars anc k s r2 ?_ hv hev
              simp only [constResolvableVal] at hcr
              exact hcr
          | none =>
            simp only [pureBind] at h
            exact hcont .none rfl h
          | int n =>
            simp only [pureBind] at h
            exact hcont (.int n) rfl h
          | bool b =>
            simp only [pureBind] at h
            exact hcont (.bool b) rfl h



/-- Claim C7 [corrected]: macro evaluation resolves the string leaves it
actually visits — mapping values and direct elements of list-valued mapping
entries, recursively through nested mappings (nested sequences are exempt:
`cleanShallow` checks exactly the visited positions; a marker inside a
sequence nested in a sequence survives evaluation untouched).
For a tree whose visited leaves all resolve through marker-free constants
of a duplicate-free mapping, a successful `_evaluate_vars` run leaves every
visited position marker-free. -/
theorem c7_eval_amended (fuel : Nat) (vars : Entries) (anc : List Entries)
    (parent res : Entries)
    (hv : varsCleanShallow vars = true)
    (hcr : constResolvable vars parent = true)
    (hkn : keysNodupB parent = true) (htn : treeNodup parent = true)
    (h : evalVars fuel vars anc parent = .ok res) :
    cleanShallow res = true :=
  (evalVars_clean fuel).1 vars anc parent res hv hcr hkn htn h

/-- Witness for C7 at a concrete tree with a string leaf as a mapping value
and one inside a list value, both resolving via the constant `v`. -/
theorem c7_witness :
    varsCleanShallow [(Key.str "v", Value.int 1)] = true ∧
    constResolvable [(Key.str "v", Value.int 1)]
      [(.str "x", .str (macroStr "v")),
       (.str "y", .list [.str (macroStr "v")])] = true ∧
    keysNodupB [(Key.str "x", Value.str (macroStr "v")),
       (Key.str "y", Value.list [Value.str (macroStr "v")])] = true ∧
    treeNodup [(Key.str "x", Value.str (macroStr "v")),
       (Key.str "y", Value.list [Value.str (macroStr "v")])] = true ∧
    evalVars 9 [(Key.str "v", Value.int 1)] []
      [(.str "x", .str (macroStr "v")),
       (.str "y", .list [.str (macroStr "v")])] =
      .ok [(.str "x", .int 1), (.str "y", .list [.int 1])] ∧
    cleanShallow [(Key.str "x", Value.int 1),
      (Key.str "y", Value.list [Value.int 1])] = true := by
  have hv : varsCleanShallow [(Key.str "v", Value.int 1)] = true := by
    simp [varsCleanShallow, cleanValShallow]
  have hcr : constResolvable [(Key.str "v", Value.int 1)]
      [(.str "x", .str (macroStr "v")),
       (.str "y", .list [.str (macroStr "v")])] = true := by
    simp [constResolvable, constResolvableVal, constResolvableList,
      dcontains, dlookup]
  have hkn : keysNodupB [(Key.str "x", Value.str (macroStr "v")),
       (Key.str "y", Value.list [Value.str (macroStr "v")])] = true := by
    simp [keysNodupB, dcontains, dlookup]
  have htn : treeNodup [(Key.str "x", Value.str (macroStr "v")),
       (Key.str "y", Value.list [Value.str (macroStr "v")])] = true := by
    simp [treeNodup, valNodup, listNodup]
  have hev : evalVars 9 [(Key.str "v", Value.int 1)] []
      [(.str "x", .str (macroStr "v")),
       (.str "y", .list [.str (macroStr "v")])] =
      .ok [(.str "x", .int 1), (.str "y", .list [.int 1])] := by
    simp [evalVars, evalVarsKeys, evalListElems, evalMacro,
      dkeys, dlookup, dset, dcontains]
  exact ⟨hv, hcr, hkn, htn, hev,
    c7_eval_amended 9 _ _ _ _ hv hcr hkn htn hev⟩

theorem populateRecurse_zero (w : World) (cn : String) (cfg : Value)
    (ds : Entries) : populateRecurse w 0 cn cfg ds = .error .noFuel := by
  simp [populateRecurse]

theorem matchingKeys_congr (cands : List String) (m m2 : Entries)
    (h : dkeys m = dkeys m2) : matchingKeys cands m = matchingKeys cands m2 := by
  simp [matchingKeys, h]

theorem getClass_congr_keys (w : World) (base : CType) (m m2 : Entries)
    (h : dkeys m = dkeys m2) :
    getClass w base (.dict m) = getClass w base (.dict m2) := by
  simp only [getClass]
  rw [matchingKeys_congr _ _ _ h, h]

theorem find_eq_of_nodup :
    ∀ (l : List (String × CType)) (f : String) (ct : CType),
      (l.map Prod.fst).Nodup → (f, ct) ∈ l →
      l.find? (fun e => e.1 = f) = some (f, ct) := by
  intro l
  induction l with
  | nil => intro f ct _ hm; simp at hm
  | cons e rest ih =>
    intro f ct hnd hm
    rcases List.mem_cons.mp hm with he | hm2
    · subst he
      exact List.find?_cons_of_pos _ (by simp)
    · have hne : e.1 ≠ f := by
        intro hh
        have : f ∈ rest.map Prod.fst :=
          List.mem_map_of_mem Prod.fst hm2
        simp only [List.map_cons, List.nodup_cons] at hnd
        exact hnd.1 (hh ▸ this)
      rw [List.find?_cons_of_neg _ (by simp [hne])]
      exact ih f ct (by simp only [List.map_cons, List.nodup_cons] at hnd; exact hnd.2) hm2

theorem cfgTypeOf_of_mem (w : World) (cn : String) (f : String) (ct : CType)
    (hnd : ((clsConfigurables w cn).map Prod.fst).Nodup)
    (hm : (f, ct) ∈ clsConfigurables w cn) :
    cfgTypeOf w cn f = some ct := by
  simp [cfgTypeOf, find_eq_of_nodup _ _ _ hnd hm]

theorem clsConfigurables_nodup (w : World)
    (hwf : ∀ spec ∈ w, (spec.configurables.map Prod.fst).Nodup) (c : String) :
    ((clsConfigurables w c).map Prod.fst).Nodup := by
  cases hf : findClass w c with
  | none => simp [clsConfigurables, hf]
  | some spec =>
    have h1 : clsConfigurables w c = spec.configurables := by
      simp [clsConfigurables, hf]
    rw [h1]
    exact hwf spec (List.mem_of_find?_eq_some hf)

theorem dpdCfgs_cons (w : World) (g : Nat) (m : Entries) (f : String)
    (ct : CType) (rest : List (String × CType)) :
    dpdCfgs w g m ((f, ct) :: rest) =
      ((match ct with
        | CType.cls base =>
          (match slookup m f with
            | some sub => dpdEntry w g base sub
            | Option.none => true)
        | _ => true) && dpdCfgs w g m rest) := by
  cases ct <;> simp [dpdCfgs]

theorem dpdCfgs_of_forall (w : World) (g : Nat) (m : Entries) :
    ∀ (cfgs : List (String × CType)),
      (∀ f base, (f, CType.cls base) ∈ cfgs →
        ∀ sub, slookup m f = some sub → dpdEntry w g base sub = true) →
      dpdCfgs w g m cfgs = true := by
  intro cfgs
  induction cfgs with
  | nil => intro _; simp [dpdCfgs]
  | cons e rest ih =>
    intro h
    obtain ⟨f, ct⟩ := e
    rw [dpdCfgs_cons, Bool.and_eq_true]
    constructor
    · cases ct with
      | cls base =>
        cases hl : slookup m f with
        | none => simp
        | some sub => simpa using h f base (by simp) sub hl
      | configList s => rfl
      | configCollection s => rfl
    · exact ih (fun f2 b2 hm2 => h f2 b2 (List.mem_cons_of_mem _ hm2))

theorem dcontains_dset_of_contains (m : Entries) (k : Key) (v : Value)
    (h : dcontains m k = true) (k2 : Key) :
    dcontains (dset m k v) k2 = dcontains m k2 := by
  rw [dcontains_dset]
  by_cases hk : k2 = k
  · subst hk
    simp [h]
  · simp [hk]

theorem populatePhase1_keys (w : World) (g : Nat) (cn : String) :
    ∀ (ds m m1 : Entries), populatePhase1 w g cn m ds = .ok m1 →
      (∀ k, dcontains m k = true → dcontains m1 k = true) ∧
      (∀ e ∈ ds, dcontains m1 e.1 = true) := by
  intro ds
  induction ds with
  | nil =>
    intro m m1 h
    simp only [populatePhase1] at h
    injection h with h
    subst h
    exact ⟨fun _ hk => hk, by simp⟩
  | cons e rest ih =>
    intro m m1 h
    obtain ⟨k, v⟩ := e
    by_cases hc : dcontains m k = true
    · cases v with
      | dict dv =>
        simp only [populatePhase1] at h
        rw [if_neg (by simp [hc])] at h
        cases hr : populateRecurse w g cn ((dlookup m k).getD .none) dv with
        | error e2 => simp [hr] at h
        | ok sub2 =>
          simp only [hr, okBind] at h
          obtain ⟨mono, pres⟩ := ih (dset m k sub2) m1 h
          refine ⟨fun k2 hk2 =>
            mono k2 (by rw [dcontains_dset_of_contains m k sub2 hc k2]; exact hk2), ?_⟩
          intro e2 he2
          rcases List.mem_cons.mp he2 with he1 | hrest
          · subst he1
            exact mono k (by rw [dcontains_dset_of_contains m k sub2 hc k]; exact hc)
          · exact pres e2 hrest
      | none =>
        simp only [populatePhase1] at h
        rw [if_neg (by simp [hc])] at h
        obtain ⟨mono, pres⟩ := ih m m1 h
        refine ⟨mono, ?_⟩
        intro e2 he2
        rcases List.mem_cons.mp he2 with he1 | hrest
        · subst he1
          exact mono k hc
        · exact pres e2 hrest
      | int n =>
        simp only [populatePhase1] at h
        rw [if_neg (by simp [hc])] at h
        obtain ⟨mono, pres⟩ := ih m m1 h
        refine ⟨mono, ?_⟩
        intro e2 he2
        rcases List.mem_cons.mp he2 with he1 | hrest
        · subst he1
          exact mono k hc
        · exact pres e2 hrest
      | str s =>
        simp only [populatePhase1] at h
        rw [if_neg (by simp [hc])] at h
        obtain ⟨mono, pres⟩ := ih m m1 h
        refine ⟨mono, ?_⟩
        intro e2 he2
        rcases List.mem_cons.mp he2 with he1 | hrest
        · subst he1
          exact mono k hc
        · exact pres e2 hrest
      | bool b =>
        simp only [populatePhase1] at h
        rw [if_neg (by simp [hc])] at h
        obtain ⟨mono, pres⟩ := ih m m1 h
        refine ⟨mono, ?_⟩
        intro e2 he2
        rcases List.mem_cons.mp he2 with he1 | hrest
        · subst he1
          exact mono k hc
        · exact pres e2 hrest
      | list xs =>
        simp only [populatePhase1] at h
        rw [if_neg (by simp [hc])] at h
        obtain ⟨mono, pres⟩ := ih m m1 h
        refine ⟨mono, ?_⟩
        intro e2 he2
        rcases List.mem_cons.mp he2 with he1 | hrest
        · subst he1
          exact mono k hc
        · exact pres e2 hrest
    · cases v <;>
      · simp only [populatePhase1] at h
        rw [if_pos hc] at h
        obtain ⟨mono, pres⟩ := ih (dset m _ _) m1 h
        refine ⟨fun k2 hk2 => mono k2 (by rw [dcontains_dset]; simp [hk2]), ?_⟩
        intro e2 he2
        rcases List.mem_cons.mp he2 with he1 | hrest
        · subst he1
          exact mono _ (by rw [dcontains_dset]; simp)
        · exact pres e2 hrest

theorem populatePhase2_spec (w : World) (g : Nat) (cn : String)
    (HIND : ∀ cn2 cfg r, populateRecurse w g cn2 cfg (clsDefaults w cn2) = .ok r →
      defaultsPresentDirect w g cn2 r = true) :
    ∀ (ks : List Key) (m res : Entries),
      populatePhase2 w g cn m ks = .ok res →
      (∀ k, dcontains res k = dcontains m k) ∧
      (∀ k, k ∉ ks → dlookup res k = dlookup m k) ∧
      (∀ f base, cfgTypeOf w cn f = some (CType.cls base) → Key.str f ∈ ks →
        ∀ sub, dlookup res (.str f) = some sub → dpdEntry w g base sub = true) := by
  intro ks
  induction ks with
  | nil =>
    intro m res h
    simp only [populatePhase2] at h
    injection h with h
    subst h
    exact ⟨fun _ => rfl, fun _ _ => rfl, fun f base _ hf => by simp at hf⟩
  | cons k rest ih =>
    intro m res h
    cases k with
    | int i =>
      simp only [populatePhase2] at h
      obtain ⟨ih1, ih2, ih3⟩ := ih m res h
      refine ⟨ih1, fun k2 hk2 => ih2 k2 (fun hr => hk2 (List.mem_cons_of_mem _ hr)), ?_⟩
      intro f base hct hfks sub hlook
      rcases List.mem_cons.mp hfks with hh | hr
      · exact absurd hh (by simp)
      · exact ih3 f base hct hr sub hlook
    | str f0 =>
      simp only [populatePhase2] at h
      cases hct0 : cfgTypeOf w cn f0 with
      | none =>
        rw [hct0] at h
        obtain ⟨ih1, ih2, ih3⟩ := ih m res h
        refine ⟨ih1, fun k2 hk2 => ih2 k2 (fun hr => hk2 (List.mem_cons_of_mem _ hr)), ?_⟩
        intro f base hct hfks sub hlook
        rcases List.mem_cons.mp hfks with hh | hr
        · have hff : f = f0 := by injection hh
          rw [hff, hct0] at hct
          cases hct
        · exact ih3 f base hct hr sub hlook
      | some ct =>
        rw [hct0] at h
        cases ct with
        | configList s =>
          obtain ⟨ih1, ih2, ih3⟩ := ih m res h
          refine ⟨ih1, fun k2 hk2 => ih2 k2 (fun hr => hk2 (List.mem_cons_of_mem _ hr)), ?_⟩
          intro f base hct hfks sub hlook
          rcases List.mem_cons.mp hfks with hh | hr
          · have hff : f = f0 := by injection hh
            rw [hff, hct0] at hct
            simp at hct
          · exact ih3 f base hct hr sub hlook
        | configCollection s =>
          obtain ⟨ih1, ih2, ih3⟩ := ih m res h
          refine ⟨ih1, fun k2 hk2 => ih2 k2 (fun hr => hk2 (List.mem_cons_of_mem _ hr)), ?_⟩
          intro f base hct hfks sub hlook
          rcases List.mem_cons.mp hfks with hh | hr
          · have hff : f = f0 := by injection hh
            rw [hff, hct0] at hct
            simp at hct
          · exact ih3 f base hct hr sub hlook
        | cls base0 =>
          cases hdl : dlookup m (.str f0) with
          | none =>
            rw [hdl] at h
            simp only [Option.getD_none] at h
            obtain ⟨ih1, ih2, ih3⟩ := ih m res h
            refine ⟨ih1, fun k2 hk2 => ih2 k2 (fun hr => hk2 (List.mem_cons_of_mem _ hr)), ?_⟩
            intro f base hct hfks sub hlook
            rcases List.mem_cons.mp hfks with hh | hr
            · have hff : f = f0 := by injection hh
              subst hff
              by_cases hfr : Key.str f ∈ rest
              · exact ih3 f base hct hfr sub hlook
              · rw [ih2 _ hfr, hdl] at hlook
                cases hlook
            · exact ih3 f base hct hr sub hlook
          | some sub0 =>
            rw [hdl] at h
            simp only [Option.getD_some] at h
            cases sub0 with
            | none =>
              obtain ⟨ih1, ih2, ih3⟩ := ih m res h
              refine ⟨ih1, fun k2 hk2 => ih2 k2 (fun hr => hk2 (List.mem_cons_of_mem _ hr)), ?_⟩
              intro f base hct hfks sub hlook
              rcases List.mem_cons.mp hfks with hh | hr
              · have hff : f = f0 := by injection hh
                subst hff
                by_cases hfr : Key.str f ∈ rest
                · exact ih3 f base hct hfr sub hlook
                · rw [ih2 _ hfr, hdl] at hlook
                  injection hlook with hlook
                  rw [← hlook]
                  simp [dpdEntry]
              · exact ih3 f base hct hr sub hlook
            | dict sm =>
              simp only [] at h
              cases hgc : getClass w (.cls base0) (.dict sm) with
              | error e2 => rw [hgc] at h; simp at h
              | ok c2 =>
                rw [hgc] at h
                simp only [pureBind] at h
                cases hpd : populateDefaults w g c2 (.dict sm) with
                | error e2 => rw [hpd] at h; simp at h
                | ok sub2 =>
                  rw [hpd] at h
                  simp only [okBind] at h
                  have hcont : dcontains m (.str f0) = true := by
                    simp [dcontains, hdl]
                  obtain ⟨ih1, ih2, ih3⟩ := ih (dset m (.str f0) sub2) res h
                  refine ⟨fun k2 => (ih1 k2).trans
                      (dcontains_dset_of_contains m _ sub2 hcont k2),
                    fun k2 hk2 => by
                      rw [ih2 k2 (fun hr => hk2 (List.mem_cons_of_mem _ hr)),
                        dlookup_dset_ne m _ k2 sub2
                          (fun hh => hk2 (hh ▸ List.mem_cons_self _ _))],
                    ?_⟩
                  intro f base hct hfks sub hlook
                  by_cases hff : f = f0
                  · subst hff
                    by_cases hfr : Key.str f ∈ rest
                    · exact ih3 f base hct hfr sub hlook
                    · rw [ih2 _ hfr, dlookup_dset_self] at hlook
                      injection hlook with hlook
                      rw [hct0] at hct
                      injection hct with hct
                      injection hct with hct
                      subst hct
                      rw [← hlook]
                      -- unpack populateDefaults to expose the recursive call
                      simp only [populateDefaults] at hpd
                      cases hsl : slookup sm c2 with
                      | none => rw [hsl] at hpd; cases hpd
                      | some inner =>
                        rw [hsl] at hpd
                        cases hpr : populateRecurse w g c2 inner (clsDefaults w c2) with
                        | error e3 => simp [hpr] at hpd
                        | ok inner2 =>
                          simp only [hpr, okBind] at hpd
                          injection hpd with hpd
                          rw [← hpd]
                          have hsmc : dcontains sm (.str c2) = true := by
                            simp [dcontains]
                            simp [slookup] at hsl
                            simp [hsl]
                          simp only [dpdEntry]
                          rw [getClass_congr_keys w (.cls base0) _ sm
                            (dkeys_dset_of_contains sm _ inner2 hsmc), hgc]
                          have : slookup (dset sm (Key.str c2) inner2) c2 = some inner2 :=
                            dlookup_dset_self sm (Key.str c2) inner2
                          simp only [this]
                          exact HIND c2 inner inner2 hpr
                  · rcases List.mem_cons.mp hfks with hh | hr
                    · exact absurd (by injection hh) hff
                    · exact ih3 f base hct hr sub hlook
            | int n =>
              simp only [] at h
              rw [show getClass w (.cls base0) (.int n) =
                  .error (.attributeError "keys") from rfl] at h
              simp at h
            | str s =>
              simp only [] at h
              rw [show getClass w (.cls base0) (.str s) =
                  .error (.attributeError "keys") from rfl] at h
              simp at h
            | bool b =>
              simp only [] at h
              rw [show getClass w (.cls base0) (.bool b) =
                  .error (.attributeError "keys") from rfl] at h
              simp at h
            | list xs =>
              simp only [] at h
              rw [show getClass w (.cls base0) (.list xs) =
                  .error (.attributeError "keys") from rfl] at h
              simp at h



theorem populateRecurse_defaults (w : World)
    (hwf : ∀ spec ∈ w, (spec.configurables.map Prod.fst).Nodup) (g : Nat) :
    ∀ cn cfg r, populateRecurse w (g + 1) cn cfg (clsDefaults w cn) = .ok r →
      defaultsPresentDirect w (g + 1) cn r = true ∧
      (∀ m, cfg = .dict m → ∃ m2, r = .dict m2 ∧
        (∀ k, dcontains m k = true → dcontains m2 k = true) ∧
        (∀ e ∈ clsDefaults w cn, dcontains m2 e.1 = true)) := by
  induction g with
  | zero =>
    intro cn cfg r h
    have HIND : ∀ cn2 cfg2 r2,
        populateRecurse w 0 cn2 cfg2 (clsDefaults w cn2) = .ok r2 →
        defaultsPresentDirect w 0 cn2 r2 = true := by
      intro cn2 cfg2 r2 h2
      rw [populateRecurse_zero] at h2
      cases h2
    cases cfg with
    | none =>
      simp only [populateRecurse] at h
      cases hp1 : populatePhase1 w 0 cn [] (clsDefaults w cn) with
      | error e => rw [hp1] at h; simp at h
      | ok m1 =>
        rw [hp1] at h
        simp only [okBind] at h
        cases hp2 : populatePhase2 w 0 cn m1 (dkeys m1) with
        | error e => rw [hp2] at h; simp at h
        | ok m2 =>
          rw [hp2] at h
          simp only [okBind] at h
          injection h with h
          subst h
          exact ⟨by simp [defaultsPresentDirect], fun m hm => by cases hm⟩
    | dict m =>
      simp only [populateRecurse] at h
      cases hp1 : populatePhase1 w 0 cn m (clsDefaults w cn) with
      | error e => rw [hp1] at h; simp at h
      | ok m1 =>
        rw [hp1] at h
        simp only [okBind] at h
        cases hp2 : populatePhase2 w 0 cn m1 (dkeys m1) with
        | error e => rw [hp2] at h; simp at h
        | ok m2 =>
          rw [hp2] at h
          simp only [okBind] at h
          injection h with h
          subst h
          obtain ⟨mono1, pres1⟩ := populatePhase1_keys w 0 cn (clsDefaults w cn) m m1 hp1
          obtain ⟨p2c, p2u, p2e⟩ := populatePhase2_spec w 0 cn HIND (dkeys m1) m1 m2 hp2
          constructor
          · simp only [defaultsPresentDirect, Bool.and_eq_true]
            constructor
            · rw [List.all_eq_true]
              intro e he
              rw [p2c e.1]
              exact pres1 e he
            · apply dpdCfgs_of_forall
              intro f base hmem sub hlook
              have hct := cfgTypeOf_of_mem w cn f (.cls base)
                (clsConfigurables_nodup w hwf cn) hmem
              have hin : Key.str f ∈ dkeys m1 := by
                rw [← dcontains_iff_mem_dkeys, ← p2c]
                simp [dcontains, slookup] at hlook ⊢
                simp [hlook]
              exact p2e f base hct hin sub hlook
          · intro m0 hm0
            injection hm0 with hm0
            subst hm0
            exact ⟨m2, rfl,
              fun k hk => by rw [p2c k]; exact mono1 k hk,
              fun e he => by rw [p2c e.1]; exact pres1 e he⟩
    | int n =>
      simp only [populateRecurse] at h
      split at h <;> simp at h
    | str s =>
      simp only [populateRecurse] at h
      split at h <;> simp at h
    | bool b =>
      simp only [populateRecurse] at h
      split at h <;> simp at h
    | list xs =>
      simp only [populateRecurse] at h
      split at h <;> simp at h
  | succ g ihg =>
    intro cn cfg r h
    have HIND : ∀ cn2 cfg2 r2,
        populateRecurse w (g + 1) cn2 cfg2 (clsDefaults w cn2) = .ok r2 →
        defaultsPresentDirect w (g + 1) cn2 r2 = true :=
      fun cn2 cfg2 r2 h2 => (ihg cn2 cfg2 r2 h2).1
    cases cfg with
    | none =>
      simp only [populateRecurse] at h
      cases hp1 : populatePhase1 w (g + 1) cn [] (clsDefaults w cn) with
      | error e => rw [hp1] at h; simp at h
      | ok m1 =>
        rw [hp1] at h
        simp only [okBind] at h
        cases hp2 : populatePhase2 w (g + 1) cn m1 (dkeys m1) with
        | error e => rw [hp2] at h; simp at h
        | ok m2 =>
          rw [hp2] at h
          simp only [okBind] at h
          injection h with h
          subst h
          exact ⟨by simp [defaultsPresentDirect], fun m hm => by cases hm⟩
    | dict m =>
      simp only [populateRecurse] at h
      cases hp1 : populatePhase1 w (g + 1) cn m (clsDefaults w cn) with
      | error e => rw [hp1] at h; simp at h
      | ok m1 =>
        rw [hp1] at h
        simp only [okBind] at h
        cases hp2 : populatePhase2 w (g + 1) cn m1 (dkeys m1) with
        | error e => rw [hp2] at h; simp at h
        | ok m2 =>
          rw [hp2] at h
          simp only [okBind] at h
          injection h with h
          subst h
          obtain ⟨mono1, pres1⟩ :=
            populatePhase1_keys w (g + 1) cn (clsDefaults w cn) m m1 hp1
          obtain ⟨p2c, p2u, p2e⟩ :=
            populatePhase2_spec w (g + 1) cn HIND (dkeys m1) m1 m2 hp2
          constructor
          · simp only [defaultsPresentDirect, Bool.and_eq_true]
            constructor
            · rw [List.all_eq_true]
              intro e he
              rw [p2c e.1]
              exact pres1 e he
            · apply dpdCfgs_of_forall
              intro f base hmem sub hlook
              have hct := cfgTypeOf_of_mem w cn f (.cls base)
                (clsConfigurables_nodup w hwf cn) hmem
              have hin : Key.str f ∈ dkeys m1 := by
                rw [← dcontains_iff_mem_dkeys, ← p2c]
                simp [dcontains, slookup] at hlook ⊢
                simp [hlook]
              exact p2e f base hct hin sub hlook
          · intro m0 hm0
            injection hm0 with hm0
            subst hm0
            exact ⟨m2, rfl,
              fun k hk => by rw [p2c k]; exact mono1 k hk,
              fun e he => by rw [p2c e.1]; exact pres1 e he⟩
    | int n =>
      simp only [populateRecurse] at h
      split at h <;> simp at h
    | str s =>
      simp only [populateRecurse] at h
      split at h <;> simp at h
    | bool b =>
      simp only [populateRecurse] at h
      split at h <;> simp at h
    | list xs =>
      simp only [populateRecurse] at h
      split at h <;> simp at h



/-- Claim C3 [corrected]: after a successful default-population pass over a
mapping block (`_populate_defaults_recurse`, configurable.py lines 101-134,
with the variant's accumulated defaults), the block keeps all its keys,
gains every defaulted field, and satisfies the completeness notion the
source actually establishes (`defaultsPresentDirect`): defaults propagate
recursively through sub-component fields declared with a direct
`Configurable` base whose configured value is a mapping with a resolvable
non-null inner block, while fields declared through `ConfigList` /
`ConfigCollection` wrappers and null inner blocks are skipped.  The
well-formedness hypothesis states that each class declares its
sub-component fields under distinct names, as every Python
`__CONFIGURABLES__` dict does. -/
theorem c3_defaults_amended (w : World) (fuel : Nat) (cn : String)
    (m : Entries) (r : Value)
    (hwf : ∀ spec ∈ w, (spec.configurables.map Prod.fst).Nodup)
    (h : populateRecurse w fuel cn (.dict m) (clsDefaults w cn) = .ok r) :
    ∃ m2, r = .dict m2 ∧
      (∀ k, dcontains m k = true → dcontains m2 k = true) ∧
      (∀ e ∈ clsDefaults w cn, dcontains m2 e.1 = true) ∧
      defaultsPresentDirect w fuel cn r = true := by
  cases fuel with
  | zero =>
    rw [populateRecurse_zero] at h
    cases h
  | succ g =>
    obtain ⟨hdpd, hdict⟩ := populateRecurse_defaults w hwf g cn (.dict m) r h
    obtain ⟨m2, hr, hmono, hpres⟩ := hdict m rfl
    exact ⟨m2, hr, hmono, hpres, hdpd⟩

/-- Witness for C3: populating `(b: 2)` for the variant `C` (default
`a: 1`) succeeds, keeps `b`, inserts `a`, and the result is
default-complete. -/
theorem c3_witness :
    (∀ spec ∈ cWorld, (spec.configurables.map Prod.fst).Nodup) ∧
    populateRecurse cWorld 9 "C" (.dict [(.str "b", .int 2)])
        (clsDefaults cWorld "C") =
      .ok (.dict [(.str "b", .int 2), (.str "a", .int 1)]) ∧
    (∃ m2, (Value.dict [(Key.str "b", Value.int 2), (Key.str "a", Value.int 1)]) =
        .dict m2 ∧
      (∀ k, dcontains [(Key.str "b", Value.int 2)] k = true →
        dcontains m2 k = true) ∧
      (∀ e ∈ clsDefaults cWorld "C", dcontains m2 e.1 = true) ∧
      defaultsPresentDirect cWorld 9 "C"
        (.dict [(Key.str "b", Value.int 2), (Key.str "a", Value.int 1)]) = true) := by
  have hwf : ∀ spec ∈ cWorld, (spec.configurables.map Prod.fst).Nodup := by
    decide
  have hrun : populateRecurse cWorld 9 "C" (.dict [(.str "b", .int 2)])
      (clsDefaults cWorld "C") =
      .ok (.dict [(.str "b", .int 2), (.str "a", .int 1)]) := by
    simp [cWorld, populateRecurse, populatePhase1, populatePhase2, cfgTypeOf,
      clsDefaults, clsConfigurables, findClass, dkeys, dcontains, dlookup,
      slookup, dset]
  exact ⟨hwf, hrun, c3_defaults_amended cWorld 9 "C" _ _ hwf hrun⟩

end Scooch
